import Mathlib

/-!
Verification of the matching-engine core of the polymarket-backend repository
(src/services/matching/orderbook.rs and src/services/matching/types.rs).

Modelling conventions:

* rust_decimal `Decimal` values are modelled as exact rationals (`ℚ`) wherever
  only the numeric value of a `Decimal` matters (prices, amounts, fees).  All
  arithmetic used on the matching path (`+`, `-`, `*`, `min`, comparisons) is
  exact in rust_decimal as long as the 96-bit mantissa does not overflow and the
  combined scale stays within 28; the claims below are settled in that range.
* The one place where the *representation* (mantissa, scale) of a `Decimal` is
  observable — `Orderbook::set_last_trade_price`, which renders `price * 10^8`
  to a string and re-parses it as `i64` — is modelled separately by the `Dec`
  structure together with faithful display and parse functions.
* `PriceLevel::from_decimal` truncates `price * 10^8` toward zero and then
  casts the `i128` result to `i64` with Rust `as` semantics (two's-complement
  wrap); the wrap is modelled by `wrap64`.  (For |price| large enough that even
  the `Decimal` multiplication `price * 10^8` overflows the 96-bit mantissa the
  source panics; all claims are settled below that bound.)
* `Uuid` is modelled as `Nat`: the code only ever compares ids for equality.
* `BTreeMap<PriceLevel, VecDeque<OrderEntry>>` is modelled as an association
  list sorted by strictly ascending key, and `DashMap<Uuid, (Side, PriceLevel)>`
  as an association list with unique keys.
* Fields of the source types that no claim observes and that no code path reads
  (`trade_id`, which is a fresh random UUID, and the `order_count` statistics
  counter) are omitted.  Trade timestamps are threaded as an explicit `now`
  argument where kept.
-/

abbrev Uuid := Nat

/-- Side of an order (types.rs, enum Side). -/
inductive Side where
  | Buy
  | Sell
deriving DecidableEq, Repr

/-- Order type (types.rs, enum OrderType). -/
inductive OrderType where
  | Limit
  | Market
deriving DecidableEq, Repr

/-- Time in force (types.rs, enum TimeInForce). -/
inductive TimeInForce where
  | GTC
  | IOC
  | FOK
deriving DecidableEq, Repr

/-- Order status (types.rs, enum OrderStatus). -/
inductive OrderStatus where
  | Open
  | PartiallyFilled
  | Filled
  | Cancelled
  | Rejected
deriving DecidableEq, Repr

/-- An order entry resident in the orderbook (types.rs, struct OrderEntry). -/
structure OrderEntry where
  id : Uuid
  user_address : String
  price : ℚ
  original_amount : ℚ
  remaining_amount : ℚ
  side : Side
  time_in_force : TimeInForce
  timestamp : Int
deriving DecidableEq, Repr

/-- One trade produced by a match step (types.rs, struct TradeExecution).
The random `trade_id` and the shared millisecond timestamp are omitted: no
claim observes them. -/
structure TradeExecution where
  maker_order_id : Uuid
  taker_order_id : Uuid
  maker_address : String
  price : ℚ
  amount : ℚ
  maker_fee : ℚ
  taker_fee : ℚ
deriving DecidableEq, Repr

/-- Fee rates (types.rs, struct FeeConfig). -/
structure FeeConfig where
  maker_fee_rate : ℚ
  taker_fee_rate : ℚ
deriving DecidableEq, Repr

/-- Default fee config (types.rs): Decimal::new(2, 4) = 0.0002 and
Decimal::new(5, 4) = 0.0005. -/
def FeeConfig.default : FeeConfig :=
  { maker_fee_rate := 2 / 10 ^ 4, taker_fee_rate := 5 / 10 ^ 4 }

/-- Interpretation of Rust `as i64` on an arbitrary integer: two's-complement
wrap into the interval [-2^63, 2^63). -/
def wrap64 (n : Int) : Int := (n + 2 ^ 63) % 2 ^ 64 - 2 ^ 63

/-- Truncation of a rational toward zero, the semantics of
rust_decimal `Decimal::trunc`. -/
def truncQ (q : ℚ) : Int := if 0 ≤ q then ⌊q⌋ else ⌈q⌉

/-- The raw `i64` inside a `PriceLevel` (types.rs). -/
abbrev PriceLevel := Int

/-- PriceLevel::from_decimal (types.rs): scale by 10^8, truncate toward zero,
cast the resulting i128 integer to i64 (wrapping). -/
def PriceLevel.fromDecimal (p : ℚ) : PriceLevel := wrap64 (truncQ (p * 100000000))

/-- PriceLevel::to_decimal (types.rs): raw value divided by 10^8. -/
def PriceLevel.toDecimal (k : PriceLevel) : ℚ := (k : ℚ) / 100000000

/-- One side of the book: the contents of a
`BTreeMap<PriceLevel, VecDeque<OrderEntry>>`, as an association list in
strictly ascending key order. -/
abbrev BookSide := List (PriceLevel × List OrderEntry)

/-- The orderbook state (orderbook.rs, struct Orderbook).  The `symbol` string,
the `order_count` statistics counter and the `last_trade_price` atomic are
omitted: the first two are observed by no claim, and the last is treated by the
separate `Dec` model below (it never feeds back into matching). -/
structure Orderbook where
  bids : BookSide
  asks : BookSide
  order_index : List (Uuid × Side × PriceLevel)
deriving DecidableEq, Repr

/-- The empty orderbook (Orderbook::new). -/
def Orderbook.new : Orderbook := { bids := [], asks := [], order_index := [] }

/-- Lookup in a BTreeMap side. -/
def mapGet (m : BookSide) (k : PriceLevel) : Option (List OrderEntry) :=
  (m.find? (fun p => p.1 = k)).map (·.2)

/-- BTreeMap `entry(k).or_insert_with(VecDeque::new).push_back(e)`: append the
entry to the queue at key `k`, creating the key at its sorted position if
absent. -/
def mapInsertAppend (m : BookSide) (k : PriceLevel) (e : OrderEntry) : BookSide :=
  match m with
  | [] => [(k, [e])]
  | (k', q) :: rest =>
    if k < k' then (k, [e]) :: (k', q) :: rest
    else if k = k' then (k', q ++ [e]) :: rest
    else (k', q) :: mapInsertAppend rest k e

/-- Replace the queue stored at key `k`. -/
def mapSet (m : BookSide) (k : PriceLevel) (q : List OrderEntry) : BookSide :=
  m.map (fun p => if p.1 = k then (k, q) else p)

/-- BTreeMap::remove. -/
def mapErase (m : BookSide) (k : PriceLevel) : BookSide :=
  m.filter (fun p => p.1 ≠ k)

/-- DashMap::insert (replaces any existing binding of the key). -/
def indexInsert (idx : List (Uuid × Side × PriceLevel)) (id : Uuid)
    (v : Side × PriceLevel) : List (Uuid × Side × PriceLevel) :=
  (id, v) :: idx.filter (fun p => p.1 ≠ id)

/-- DashMap lookup. -/
def indexLookup (idx : List (Uuid × Side × PriceLevel)) (id : Uuid) :
    Option (Side × PriceLevel) :=
  (idx.find? (fun p => p.1 = id)).map (·.2)

/-- DashMap::remove, keeping only the resulting map. -/
def indexErase (idx : List (Uuid × Side × PriceLevel)) (id : Uuid) :
    List (Uuid × Side × PriceLevel) :=
  idx.filter (fun p => p.1 ≠ id)

/-- Orderbook::add_order (orderbook.rs lines 94-118): push the entry to the
tail of its price level's queue on the appropriate side and register it in the
order index. -/
def Orderbook.addOrder (b : Orderbook) (e : OrderEntry) : Orderbook :=
  let price_level := PriceLevel.fromDecimal e.price
  let b' := match e.side with
    | Side.Buy => { b with bids := mapInsertAppend b.bids price_level e }
    | Side.Sell => { b with asks := mapInsertAppend b.asks price_level e }
  { b' with order_index := indexInsert b'.order_index e.id (e.side, price_level) }

/-- Remove the first entry with the given id from a queue, returning it. -/
def removeById (q : List OrderEntry) (id : Uuid) :
    Option OrderEntry × List OrderEntry :=
  match q with
  | [] => (none, [])
  | e :: rest =>
    if e.id = id then (some e, rest)
    else
      let r := removeById rest id
      (r.1, e :: r.2)

/-- Remove the entry with this id from one side's map at key `k`, dropping the
price level if its queue empties; mirrors the per-side body of
Orderbook::cancel_order. -/
def cancelFromSide (m : BookSide) (k : PriceLevel) (id : Uuid) :
    Option OrderEntry × BookSide :=
  match mapGet m k with
  | none => (none, m)
  | some q =>
    match removeById q id with
    | (none, _) => (none, m)
    | (some e, q') => (some e, if q'.isEmpty then mapErase m k else mapSet m k q')

/-- Orderbook::cancel_order (orderbook.rs lines 121-168): remove the id from
the index first; if it was present, remove the entry from the recorded side and
price level, dropping the level if it empties. -/
def Orderbook.cancelOrder (b : Orderbook) (id : Uuid) :
    Option OrderEntry × Orderbook :=
  match indexLookup b.order_index id with
  | none => (none, b)
  | some (side, price_level) =>
    let idx' := indexErase b.order_index id
    match side with
    | Side.Buy =>
      let r := cancelFromSide b.bids price_level id
      (r.1, { b with bids := r.2, order_index := idx' })
    | Side.Sell =>
      let r := cancelFromSide b.asks price_level id
      (r.1, { b with asks := r.2, order_index := idx' })

/-- The inner maker loop of Orderbook::match_order over one price level's
queue.  Returns the trades produced, the remaining taker amount, the surviving
queue, and the ids of fully consumed makers (which match_order removes from the
order index).  In the source, when a maker is only partially filled the loop
re-enters with that maker still at the front, but a partial fill forces
`trade_amount = amount`, so the re-entered iteration sees `amount <= 0` and
breaks at once; the translation returns directly in that branch. -/
def fillQueue (takerId : Uuid) (fc : FeeConfig) (amount : ℚ)
    (q : List OrderEntry) :
    List TradeExecution × ℚ × List OrderEntry × List Uuid :=
  match q with
  | [] => ([], amount, [], [])
  | maker :: rest =>
    if amount ≤ 0 then ([], amount, maker :: rest, [])
    else
      let trade_amount := min amount maker.remaining_amount
      let trade_price := maker.price
      let trade_value := trade_amount * trade_price
      let trade : TradeExecution :=
        { maker_order_id := maker.id
          taker_order_id := takerId
          maker_address := maker.user_address
          price := trade_price
          amount := trade_amount
          maker_fee := trade_value * fc.maker_fee_rate
          taker_fee := trade_value * fc.taker_fee_rate }
      let amount' := amount - trade_amount
      let rem' := maker.remaining_amount - trade_amount
      if rem' ≤ 0 then
        let r := fillQueue takerId fc amount' rest
        (trade :: r.1, r.2.1, r.2.2.1, maker.id :: r.2.2.2)
      else
        ([trade], amount', { maker with remaining_amount := rem' } :: rest, [])

/-- The outer price-level loop of Orderbook::match_order, over the levels in
traversal order (ascending for Buy against asks, descending for Sell against
bids).  `stop` is the limit-price check: the loop breaks at the first level for
which it holds (and also when the taker amount is exhausted), leaving the
remaining levels untouched.  A level whose queue empties is removed. -/
def fillLevels (takerId : Uuid) (fc : FeeConfig) (stop : PriceLevel → Bool)
    (amount : ℚ) (levels : BookSide) :
    List TradeExecution × ℚ × BookSide × List Uuid :=
  match levels with
  | [] => ([], amount, [], [])
  | (k, q) :: rest =>
    if amount ≤ 0 then ([], amount, (k, q) :: rest, [])
    else if stop k then ([], amount, (k, q) :: rest, [])
    else
      let r := fillQueue takerId fc amount q
      let r2 := fillLevels takerId fc stop r.2.1 rest
      (r.1 ++ r2.1, r2.2.1,
        (if r.2.2.1.isEmpty then r2.2.2.1 else (k, r.2.2.1) :: r2.2.2.1),
        r.2.2.2 ++ r2.2.2.2)

/-- The Buy-side stop check of match_order (orderbook.rs lines 197-202): break
when the level's 8-decimal price exceeds the buy limit. -/
def buyStop (limit_price : Option ℚ) (k : PriceLevel) : Bool :=
  match limit_price with
  | some limit => decide (PriceLevel.toDecimal k > limit)
  | none => false

/-- The Sell-side stop check of match_order (orderbook.rs lines 264-269): break
when the level's 8-decimal price is below the sell limit. -/
def sellStop (limit_price : Option ℚ) (k : PriceLevel) : Bool :=
  match limit_price with
  | some limit => decide (PriceLevel.toDecimal k < limit)
  | none => false

/-- Orderbook::match_order (orderbook.rs lines 172-322).  A Buy walks the ask
levels in ascending key order; a Sell walks the bid levels in descending key
order (the source collects `bids.keys().rev()`), which is modelled by running
the loop on the reversed list and reversing the surviving levels back.  Ids of
fully consumed makers are removed from the order index (the source interleaves
these removals with the fills; the final state is the same).  Returns
((trades, remaining_amount), updated book). -/
def Orderbook.matchOrder (b : Orderbook) (takerId : Uuid) (side : Side)
    (amount : ℚ) (limit_price : Option ℚ) (fc : FeeConfig) :
    (List TradeExecution × ℚ) × Orderbook :=
  match side with
  | Side.Buy =>
    let r := fillLevels takerId fc (buyStop limit_price) amount b.asks
    ((r.1, r.2.1),
      { b with asks := r.2.2.1, order_index := r.2.2.2.foldl indexErase b.order_index })
  | Side.Sell =>
    let r := fillLevels takerId fc (sellStop limit_price) amount b.bids.reverse
    ((r.1, r.2.1),
      { b with bids := r.2.2.1.reverse, order_index := r.2.2.2.foldl indexErase b.order_index })

/-- Total resting amount in one level's queue. -/
def levelAmount (q : List OrderEntry) : ℚ := (q.map (·.remaining_amount)).sum

/-- Orderbook::snapshot (orderbook.rs lines 325-354): bids in reverse (best,
i.e. highest, first) and asks in natural (lowest first) order, at most `depth`
levels per side, each level reported as (price, sum of remaining amounts).  The
source renders both numbers to strings for the API response; the model keeps
the numeric values. -/
def Orderbook.snapshot (b : Orderbook) (depth : Nat) :
    List (ℚ × ℚ) × List (ℚ × ℚ) :=
  ((b.bids.reverse.take depth).map (fun p => (PriceLevel.toDecimal p.1, levelAmount p.2)),
    (b.asks.take depth).map (fun p => (PriceLevel.toDecimal p.1, levelAmount p.2)))

-- Sanity checks of the model against the repository's own unit tests
-- (orderbook.rs, tests test_match_buy_order and test_snapshot).

def testEntry (id : Uuid) (price amount : ℚ) (side : Side) : OrderEntry :=
  { id := id, user_address := "0x1234", price := price, original_amount := amount
    remaining_amount := amount, side := side, time_in_force := TimeInForce.GTC
    timestamp := 0 }

example :
    let b := (Orderbook.new.addOrder (testEntry 1 100 1 Side.Sell)).addOrder
      (testEntry 2 101 2 Side.Sell)
    let r := b.matchOrder 99 Side.Buy (3/2) (some 101) FeeConfig.default
    r.1.2 = 0 ∧ (r.1.1.map (fun t => (t.price, t.amount, t.maker_order_id))) =
      [(100, 1, 1), (101, 1/2, 2)] ∧
    (r.2.asks.map (fun p => (p.1, p.2.map (·.remaining_amount)))) =
      [(10100000000, [3/2])] ∧
    r.2.order_index = [(2, (Side.Sell, 10100000000))] := by
  with_unfolding_all decide

example :
    let b := ((Orderbook.new.addOrder (testEntry 1 100 1 Side.Buy)).addOrder
      (testEntry 2 100 2 Side.Buy)).addOrder (testEntry 3 102 (3/2) Side.Sell)
    b.snapshot 10 = ([(100, 3)], [(102, 3/2)]) := by
  with_unfolding_all decide

example : ((-3 : Int) % 5) = 2 := by decide

/-! ## The last-trade-price interface

`Orderbook::set_last_trade_price` (orderbook.rs lines 57-71) is the one place
where the mantissa/scale *representation* of a rust_decimal `Decimal` is
observable: it computes `price * Decimal::from(100_000_000)`, renders the
result with `Decimal`'s `Display` (which keeps the scale of the product, i.e.
prints trailing fractional digits), and re-parses the string as `i64`, storing
0 on any parse failure.  `Dec` models a `Decimal` as a signed mantissa and a
scale (value = mantissa / 10^scale). -/

/-- A rust_decimal `Decimal`: value = mantissa / 10^scale.  In the source the
mantissa is a signed 96-bit integer and scale ≤ 28; the operations below are
used only inside that range. -/
structure Dec where
  mantissa : Int
  scale : Nat
deriving DecidableEq, Repr

/-- Numeric value of a `Decimal`. -/
def Dec.value (d : Dec) : ℚ := (d.mantissa : ℚ) / (10 : ℚ) ^ d.scale

/-- rust_decimal multiplication: mantissas multiply and scales add.  (The
source rescales and rounds only when the product mantissa overflows 96 bits or
the combined scale exceeds 28; trailing zeros are never stripped.  Used here
only inside that exact range.) -/
def Dec.mul (a b : Dec) : Dec := ⟨a.mantissa * b.mantissa, a.scale + b.scale⟩

/-- Decimal::from(100_000_000): integer, scale 0. -/
def decE8 : Dec := ⟨100000000, 0⟩

/-- Little-endian decimal digits of `n`, with explicit fuel (`fuel ≥ n`
suffices); structural so it evaluates inside the kernel. -/
def digitsLE : Nat → Nat → List Nat
  | 0, _ => []
  | _ + 1, 0 => []
  | fuel + 1, n => n % 10 :: digitsLE fuel (n / 10)

/-- The character for one decimal digit. -/
def digitCh (d : Nat) : Char := Nat.digitChar d

/-- Decimal digit characters of a natural number, most significant first
(the rendering of a nonnegative integer mantissa). -/
def natChars (n : Nat) : List Char :=
  if n = 0 then ['0'] else ((digitsLE n n).map digitCh).reverse

/-- rust_decimal `Display` (the `to_string()` in set_last_trade_price): the
absolute mantissa's digits, zero-padded on the left to at least scale+1
digits, with a decimal point inserted before the last `scale` digits when
scale > 0, and a leading minus sign for negative values. -/
def Dec.toChars (d : Dec) : List Char :=
  let ds := natChars d.mantissa.natAbs
  let ds := if ds.length ≤ d.scale then List.replicate (d.scale + 1 - ds.length) '0' ++ ds else ds
  let sign : List Char := if d.mantissa < 0 then ['-'] else []
  if d.scale = 0 then sign ++ ds
  else sign ++ (ds.take (ds.length - d.scale) ++ '.' :: ds.drop (ds.length - d.scale))

/-- Digit-run part of Rust `str::parse::<i64>`: all characters must be ASCII
digits and there must be at least one. -/
def parseNatDigits (l : List Char) : Option Nat :=
  if l ≠ [] ∧ l.all Char.isDigit then
    some (l.foldl (fun a c => a * 10 + (c.toNat - 48)) 0)
  else none

/-- Rust `str::parse::<i64>`: optional sign, then decimal digits only; an
empty string, any other character (in particular a decimal point) or a value
outside the i64 range is an error. -/
def parseI64 (l : List Char) : Option Int :=
  match l with
  | [] => none
  | c :: cs =>
    if c = '-' then
      (parseNatDigits cs).bind (fun n => if n ≤ 2 ^ 63 then some (-(n : Int)) else none)
    else if c = '+' then
      (parseNatDigits cs).bind (fun n => if n < 2 ^ 63 then some ((n : Int)) else none)
    else
      (parseNatDigits (c :: cs)).bind (fun n => if n < 2 ^ 63 then some ((n : Int)) else none)

/-- Orderbook::set_last_trade_price (orderbook.rs lines 68-71): the raw i64
stored into the atomic: `(price * 10^8).to_string().parse::<i64>().unwrap_or(0)`. -/
def setLastTradePrice (price : Dec) : Int :=
  (parseI64 (Dec.toChars (Dec.mul price decE8))).getD 0

/-- Orderbook::last_trade_price (orderbook.rs lines 58-65): `None` when the
stored raw value is 0, otherwise the raw value divided by 10^8. -/
def lastTradePrice (raw : Int) : Option ℚ :=
  if raw = 0 then none else some ((raw : ℚ) / 100000000)

-- dec!(100.0) is mantissa 1000 at scale 1; its scaled string keeps the scale.
example : Dec.toChars (Dec.mul ⟨1000, 1⟩ decE8) = "10000000000.0".data := by decide

example : setLastTradePrice ⟨1000, 1⟩ = 0 := by decide

example : setLastTradePrice ⟨100, 0⟩ = 10000000000 := by decide

example : setLastTradePrice ⟨-1234, 0⟩ = -123400000000 := by decide

/-! ## The matching engine (spec-modelled)

The repository's `src/services/matching/mod.rs` declares `mod engine;` and
re-exports `MatchingEngine`, but `engine.rs` itself is not present under the
source tree; only its callers and the spec describe `submit_order`.  The status
assignment and re-insertion behaviour are therefore modelled from the spec. -/

/-- Modelled from the spec: `MatchingEngine::submit_order`'s interaction with
the orderbook (the file src/services/matching/engine.rs is missing from the
source tree; spec section 4.3 describes it).  A market order matches with no
limit price; its unmatched remainder is discarded and it is `Rejected` when
nothing at all matched, otherwise `PartiallyFilled`/`Filled`.  A limit order
matches against its limit price and its nonzero unmatched remainder is inserted
into the book as a resting `OrderEntry` via add_order (`Open` when nothing
matched, `PartiallyFilled` when something did, `Filled` when no remainder). -/
def submitOrder (b : Orderbook) (orderId : Uuid) (addr : String) (side : Side)
    (order_type : OrderType) (amount : ℚ) (price : Option ℚ) (now : Int)
    (fc : FeeConfig) : (OrderStatus × List TradeExecution × ℚ) × Orderbook :=
  let limit := match order_type with
    | OrderType.Market => none
    | OrderType.Limit => price
  let r := b.matchOrder orderId side amount limit fc
  let trades := r.1.1
  let remaining := r.1.2
  match order_type with
  | OrderType.Market =>
    let status :=
      if remaining = amount then OrderStatus.Rejected
      else if 0 < remaining then OrderStatus.PartiallyFilled
      else OrderStatus.Filled
    ((status, trades, remaining), r.2)
  | OrderType.Limit =>
    if remaining = 0 then ((OrderStatus.Filled, trades, remaining), r.2)
    else
      let entry : OrderEntry :=
        { id := orderId, user_address := addr, price := price.getD 0
          original_amount := amount, remaining_amount := remaining, side := side
          time_in_force := TimeInForce.GTC, timestamp := now }
      let status := if remaining = amount then OrderStatus.Open
        else OrderStatus.PartiallyFilled
      ((status, trades, remaining), r.2.addOrder entry)

/-! ## Derived notions used by the claims -/

/-- The side of the book an incoming order of side `s` matches against. -/
def Orderbook.oppSide (b : Orderbook) : Side → BookSide
  | Side.Buy => b.asks
  | Side.Sell => b.bids

/-- The map a given side's orders rest on. -/
def Orderbook.sideMap (b : Orderbook) : Side → BookSide
  | Side.Buy => b.bids
  | Side.Sell => b.asks

/-- All entries resident on one side, in book order. -/
def allEntries (m : BookSide) : List OrderEntry := (m.map (·.2)).join

/-- All order ids resident on one side. -/
def sideIds (m : BookSide) : List Uuid := (allEntries m).map (·.id)

/-- All order ids resident in the book. -/
def bookIds (b : Orderbook) : List Uuid := sideIds b.bids ++ sideIds b.asks

/-- Total amount the trades `ts` name order `id` as maker for. -/
def suppliedBy (ts : List TradeExecution) (id : Uuid) : ℚ :=
  ((ts.filter (fun t => t.maker_order_id = id)).map (·.amount)).sum

/-- All entries on a side have positive remaining amount (the spec's
OrderEntry data-model invariant; upstream validation is assumed by the code). -/
def PosSide (m : BookSide) : Prop := ∀ e ∈ allEntries m, 0 < e.remaining_amount

/-- Both sides have positive remaining amounts. -/
def Pos (b : Orderbook) : Prop := PosSide b.bids ∧ PosSide b.asks

/-! ## Inner-loop (fillQueue) lemmas -/

theorem fillQueue_sum (tid : Uuid) (fc : FeeConfig) :
    ∀ (q : List OrderEntry) (amount : ℚ),
    ((fillQueue tid fc amount q).1.map (·.amount)).sum =
      amount - (fillQueue tid fc amount q).2.1 := by
  intro q
  induction q with
  | nil => intro amount; simp [fillQueue]
  | cons maker rest ih =>
    intro amount
    by_cases h0 : amount ≤ 0
    · simp [fillQueue, h0]
    · by_cases h1 : maker.remaining_amount - min amount maker.remaining_amount ≤ 0
      · simp only [fillQueue, if_neg h0, if_pos h1, List.map_cons, List.sum_cons, ih]
        ring
      · simp only [fillQueue, if_neg h0, if_neg h1, List.map_cons, List.map_nil,
          List.sum_cons, List.sum_nil]
        ring

theorem fillQueue_ids (tid : Uuid) (fc : FeeConfig) :
    ∀ (q : List OrderEntry) (amount : ℚ),
    (fillQueue tid fc amount q).2.2.2 ++ (fillQueue tid fc amount q).2.2.1.map (·.id) =
      q.map (·.id) := by
  intro q
  induction q with
  | nil => intro amount; simp [fillQueue]
  | cons maker rest ih =>
    intro amount
    by_cases h0 : amount ≤ 0
    · simp [fillQueue, h0]
    · by_cases h1 : maker.remaining_amount - min amount maker.remaining_amount ≤ 0
      · simp only [fillQueue, if_neg h0, if_pos h1, List.map_cons, List.cons_append]
        rw [ih]
      · simp only [fillQueue, if_neg h0, if_neg h1, List.map_cons, List.nil_append]

theorem fillQueue_entry_src (tid : Uuid) (fc : FeeConfig) :
    ∀ (q : List OrderEntry) (amount : ℚ),
    ∀ e' ∈ (fillQueue tid fc amount q).2.2.1,
      ∃ e ∈ q, e'.id = e.id ∧ e'.price = e.price ∧
        e'.remaining_amount ≤ e.remaining_amount := by
  intro q
  induction q with
  | nil => intro amount e' h; simp [fillQueue] at h
  | cons maker rest ih =>
    intro amount e' h
    by_cases h0 : amount ≤ 0
    · simp only [fillQueue, if_pos h0] at h
      rcases List.mem_cons.mp h with h | h
      · exact ⟨maker, List.mem_cons_self _ _, by simp [h]⟩
      · exact ⟨e', List.mem_cons_of_mem _ h, rfl, rfl, le_refl _⟩
    · by_cases h1 : maker.remaining_amount - min amount maker.remaining_amount ≤ 0
      · simp only [fillQueue, if_neg h0, if_pos h1] at h
        rcases ih _ e' h with ⟨e, he, ha, hb, hcc⟩
        exact ⟨e, List.mem_cons_of_mem _ he, ha, hb, hcc⟩
      · simp only [fillQueue, if_neg h0, if_neg h1] at h
        rcases List.mem_cons.mp h with h | h
        · refine ⟨maker, List.mem_cons_self _ _, by simp [h], by simp [h], ?_⟩
          subst h
          simp only
          have hmin : 0 ≤ min amount maker.remaining_amount := by
            push_neg at h0 h1
            rcases le_or_lt 0 maker.remaining_amount with hr | hr
            · exact le_min (le_of_lt h0) hr
            · rw [min_eq_right (le_of_lt (hr.trans h0))] at h1
              linarith
          linarith
        · exact ⟨e', List.mem_cons_of_mem _ h, rfl, rfl, le_refl _⟩

theorem fillQueue_trade_src (tid : Uuid) (fc : FeeConfig) :
    ∀ (q : List OrderEntry) (amount : ℚ),
    ∀ t ∈ (fillQueue tid fc amount q).1,
      ∃ e ∈ q, t.maker_order_id = e.id ∧ t.price = e.price := by
  intro q
  induction q with
  | nil => intro amount t h; simp [fillQueue] at h
  | cons maker rest ih =>
    intro amount t h
    by_cases h0 : amount ≤ 0
    · simp [fillQueue, if_pos h0] at h
    · by_cases h1 : maker.remaining_amount - min amount maker.remaining_amount ≤ 0
      · simp only [fillQueue, if_neg h0, if_pos h1] at h
        rcases List.mem_cons.mp h with h | h
        · exact ⟨maker, List.mem_cons_self _ _, by simp [h]⟩
        · rcases ih _ t h with ⟨e, he, ha, hb⟩
          exact ⟨e, List.mem_cons_of_mem _ he, ha, hb⟩
      · simp only [fillQueue, if_neg h0, if_neg h1] at h
        rcases List.mem_cons.mp h with h | h
        · exact ⟨maker, List.mem_cons_self _ _, by simp [h]⟩
        · simp at h

theorem suppliedBy_cons (t : TradeExecution) (ts : List TradeExecution) (id : Uuid) :
    suppliedBy (t :: ts) id =
      (if t.maker_order_id = id then t.amount else 0) + suppliedBy ts id := by
  by_cases h : t.maker_order_id = id <;> simp [suppliedBy, List.filter_cons, h]

theorem suppliedBy_append (ts1 ts2 : List TradeExecution) (id : Uuid) :
    suppliedBy (ts1 ++ ts2) id = suppliedBy ts1 id + suppliedBy ts2 id := by
  simp [suppliedBy, List.filter_append]

theorem suppliedBy_eq_zero (ts : List TradeExecution) (id : Uuid)
    (h : ∀ t ∈ ts, t.maker_order_id ≠ id) : suppliedBy ts id = 0 := by
  have : ts.filter (fun t => t.maker_order_id = id) = [] := by
    apply List.filter_eq_nil.mpr
    intro t ht
    simp [h t ht]
  simp [suppliedBy, this]

theorem nodup_id_inj (l : List OrderEntry) (h : (l.map (·.id)).Nodup) :
    ∀ a ∈ l, ∀ b ∈ l, a.id = b.id → a = b := by
  induction l with
  | nil => intro a ha; simp at ha
  | cons x rest ih =>
    simp only [List.map_cons, List.nodup_cons, List.mem_map] at h
    intro a ha b hb hab
    rcases List.mem_cons.mp ha with ha | ha <;> rcases List.mem_cons.mp hb with hb | hb
    · rw [ha, hb]
    · exact absurd ⟨b, hb, (ha ▸ hab).symm⟩ h.1
    · exact absurd ⟨a, ha, hb ▸ hab⟩ h.1
    · exact ih h.2 a ha b hb hab

theorem fillQueue_pos (tid : Uuid) (fc : FeeConfig) :
    ∀ (q : List OrderEntry) (amount : ℚ),
    (∀ e ∈ q, 0 < e.remaining_amount) →
    ∀ e' ∈ (fillQueue tid fc amount q).2.2.1, 0 < e'.remaining_amount := by
  intro q
  induction q with
  | nil => intro amount _ e' h; simp [fillQueue] at h
  | cons maker rest ih =>
    intro amount hpos e' h
    by_cases h0 : amount ≤ 0
    · simp only [fillQueue, if_pos h0] at h
      exact hpos e' h
    · by_cases h1 : maker.remaining_amount - min amount maker.remaining_amount ≤ 0
      · simp only [fillQueue, if_neg h0, if_pos h1] at h
        exact ih _ (fun e he => hpos e (List.mem_cons_of_mem _ he)) e' h
      · simp only [fillQueue, if_neg h0, if_neg h1] at h
        rcases List.mem_cons.mp h with h | h
        · rw [h]; push_neg at h1; exact h1
        · exact hpos e' (List.mem_cons_of_mem _ h)

theorem fillQueue_accounting (tid : Uuid) (fc : FeeConfig) :
    ∀ (q : List OrderEntry) (amount : ℚ),
    (q.map (·.id)).Nodup →
    ∀ e ∈ q,
      (e.id ∈ (fillQueue tid fc amount q).2.2.2 →
        suppliedBy (fillQueue tid fc amount q).1 e.id = e.remaining_amount) ∧
      (∀ e' ∈ (fillQueue tid fc amount q).2.2.1, e'.id = e.id →
        e'.remaining_amount =
          e.remaining_amount - suppliedBy (fillQueue tid fc amount q).1 e.id) := by
  intro q
  induction q with
  | nil => intro amount _ e he; simp at he
  | cons maker rest ih =>
    intro amount hnd e he
    have hnd' : (rest.map (·.id)).Nodup := by
      simp only [List.map_cons, List.nodup_cons] at hnd; exact hnd.2
    have hmaker_notin : maker.id ∉ rest.map (·.id) := by
      simp only [List.map_cons, List.nodup_cons] at hnd; exact hnd.1
    by_cases h0 : amount ≤ 0
    · simp only [fillQueue, if_pos h0]
      constructor
      · intro hmem; simp at hmem
      · intro e' he' hid
        have : e' = e := nodup_id_inj _ hnd e' he' e he hid
        simp [this, suppliedBy]
    · by_cases h1 : maker.remaining_amount - min amount maker.remaining_amount ≤ 0
      · simp only [fillQueue, if_neg h0, if_pos h1]
        have hts' := fillQueue_trade_src tid fc rest (amount - min amount maker.remaining_amount)
        have hids' := fillQueue_ids tid fc rest (amount - min amount maker.remaining_amount)
        have hta : min amount maker.remaining_amount = maker.remaining_amount :=
          le_antisymm (min_le_right _ _) (by linarith)
        rcases List.mem_cons.mp he with he | he
        · -- e is the fully consumed head maker
          rw [he]
          have hsup0 : suppliedBy
              (fillQueue tid fc (amount - min amount maker.remaining_amount) rest).1
              maker.id = 0 := by
            apply suppliedBy_eq_zero
            intro t ht
            rcases hts' t ht with ⟨e2, he2, heq, _⟩
            intro hc
            exact hmaker_notin (List.mem_map.mpr ⟨e2, he2, (hc ▸ heq).symm⟩)
          constructor
          · intro _
            rw [suppliedBy_cons, hsup0]
            simp [hta]
          · intro e' he' hid
            exfalso
            have : e'.id ∈ rest.map (·.id) := by
              rw [← hids']
              exact List.mem_append_right _ (List.mem_map.mpr ⟨e', he', rfl⟩)
            rw [hid] at this
            exact hmaker_notin this
        · -- e is further back in the queue
          have hne : maker.id ≠ e.id := by
            intro hc
            exact hmaker_notin (List.mem_map.mpr ⟨e, he, hc.symm⟩)
          have hrec := ih (amount - min amount maker.remaining_amount) hnd' e he
          constructor
          · intro hmem
            rcases List.mem_cons.mp hmem with hmem | hmem
            · exact absurd hmem.symm hne
            · rw [suppliedBy_cons]
              simp only [if_neg hne]
              rw [hrec.1 hmem]
              ring
          · intro e' he' hid
            rw [suppliedBy_cons]
            simp only [if_neg hne]
            rw [hrec.2 e' he' hid]
            ring
      · simp only [fillQueue, if_neg h0, if_neg h1]
        rcases List.mem_cons.mp he with he | he
        · rw [he]
          constructor
          · intro hmem; simp at hmem
          · intro e' he' hid
            rcases List.mem_cons.mp he' with he' | he'
            · rw [he']
              rw [suppliedBy_cons]
              simp [suppliedBy]
            · exfalso
              have : maker.id ∉ rest.map (·.id) := hmaker_notin
              exact this (hid ▸ List.mem_map.mpr ⟨e', he', rfl⟩)
        · have hne : maker.id ≠ e.id := by
            intro hc
            exact hmaker_notin (List.mem_map.mpr ⟨e, he, hc.symm⟩)
          constructor
          · intro hmem; simp at hmem
          · intro e' he' hid
            rcases List.mem_cons.mp he' with he' | he'
            · exfalso
              apply hne
              rw [← hid, he']
            · have : e' = e := nodup_id_inj _ hnd' e' he' e he hid
              rw [suppliedBy_cons]
              simp only [if_neg hne]
              simp [this, suppliedBy]

theorem fillQueue_fifo (tid : Uuid) (fc : FeeConfig) :
    ∀ (q : List OrderEntry) (amount : ℚ),
    (q.map (·.id)).Nodup →
    ∀ (l1 : List OrderEntry) (e1 : OrderEntry) (l2 : List OrderEntry)
      (e2 : OrderEntry) (l3 : List OrderEntry),
    q = l1 ++ e1 :: l2 ++ e2 :: l3 →
    (∃ t ∈ (fillQueue tid fc amount q).1, t.maker_order_id = e2.id) →
    ∃ t' ∈ (fillQueue tid fc amount q).1,
      t'.maker_order_id = e1.id ∧ t'.amount = e1.remaining_amount ∧
      e1.id ∈ (fillQueue tid fc amount q).2.2.2 := by
  intro q
  induction q with
  | nil =>
    intro amount _ l1 e1 l2 e2 l3 hq
    exfalso
    exact List.not_mem_nil e2 (hq ▸ (by simp : e2 ∈ l1 ++ e1 :: l2 ++ e2 :: l3))
  | cons maker rest ih =>
    intro amount hnd l1 e1 l2 e2 l3 hq ⟨t, ht, htm⟩
    have hnd' : (rest.map (·.id)).Nodup := by
      simp only [List.map_cons, List.nodup_cons] at hnd; exact hnd.2
    have hmaker_notin : maker.id ∉ rest.map (·.id) := by
      simp only [List.map_cons, List.nodup_cons] at hnd; exact hnd.1
    have he2q : e2 ∈ l1 ++ e1 :: l2 ++ e2 :: l3 := by simp
    by_cases h0 : amount ≤ 0
    · rw [show (fillQueue tid fc amount (maker :: rest)).1 = [] by
        simp only [fillQueue, if_pos h0]] at ht
      simp at ht
    · by_cases h1 : maker.remaining_amount - min amount maker.remaining_amount ≤ 0
      · simp only [fillQueue, if_neg h0, if_pos h1] at ht ⊢
        have hta : min amount maker.remaining_amount = maker.remaining_amount :=
          le_antisymm (min_le_right _ _) (by linarith)
        cases l1 with
        | nil =>
          -- e1 is the head maker: its own trade is the witness
          simp only [List.nil_append] at hq
          have he1 : maker = e1 := (List.cons_eq_cons.mp hq).1
          rw [he1] at hta
          refine ⟨_, List.mem_cons_self _ _, by simp [he1], by simp only; rw [he1, hta], ?_⟩
          rw [← he1]
          exact List.mem_cons_self _ _
        | cons x l1' =>
          have hx : maker = x ∧ rest = l1' ++ e1 :: l2 ++ e2 :: l3 := by
            simpa using List.cons_eq_cons.mp hq
          have he2rest : e2 ∈ rest := by
            rw [hx.2]; simp
          rcases List.mem_cons.mp ht with ht' | ht'
          · exfalso
            rw [ht'] at htm
            simp only at htm
            exact hmaker_notin (htm ▸ List.mem_map.mpr ⟨e2, he2rest, rfl⟩)
          · rcases ih _ hnd' l1' e1 l2 e2 l3 hx.2 ⟨t, ht', htm⟩ with ⟨t', ht'', ha, hb, hcc⟩
            exact ⟨t', List.mem_cons_of_mem _ ht'', ha, hb, List.mem_cons_of_mem _ hcc⟩
      · simp only [fillQueue, if_neg h0, if_neg h1] at ht ⊢
        exfalso
        rcases List.mem_cons.mp ht with ht' | ht'
        · rw [ht'] at htm
          simp only at htm
          cases l1 with
          | nil =>
            simp only [List.nil_append] at hq
            have he1 : maker = e1 := (List.cons_eq_cons.mp hq).1
            have he2rest : e2 ∈ rest := by
              have : rest = l2 ++ e2 :: l3 := (List.cons_eq_cons.mp hq).2
              rw [this]; simp
            exact hmaker_notin (htm ▸ List.mem_map.mpr ⟨e2, he2rest, rfl⟩)
          | cons x l1' =>
            have hx : rest = l1' ++ e1 :: l2 ++ e2 :: l3 := by
              simpa using (List.cons_eq_cons.mp hq).2
            have he2rest : e2 ∈ rest := by rw [hx]; simp
            exact hmaker_notin (htm ▸ List.mem_map.mpr ⟨e2, he2rest, rfl⟩)
        · simp at ht'

theorem fillQueue_fees (tid : Uuid) (fc : FeeConfig) :
    ∀ (q : List OrderEntry) (amount : ℚ),
    ∀ t ∈ (fillQueue tid fc amount q).1,
      t.maker_fee = t.amount * t.price * fc.maker_fee_rate ∧
      t.taker_fee = t.amount * t.price * fc.taker_fee_rate ∧
      t.taker_order_id = tid := by
  intro q
  induction q with
  | nil => intro amount t h; simp [fillQueue] at h
  | cons maker rest ih =>
    intro amount t h
    by_cases h0 : amount ≤ 0
    · simp [fillQueue, if_pos h0] at h
    · by_cases h1 : maker.remaining_amount - min amount maker.remaining_amount ≤ 0
      · simp only [fillQueue, if_neg h0, if_pos h1] at h
        rcases List.mem_cons.mp h with h | h
        · subst h; simp
        · exact ih _ t h
      · simp only [fillQueue, if_neg h0, if_neg h1] at h
        rcases List.mem_cons.mp h with h | h
        · subst h; simp
        · simp at h

/-! ## Outer-loop (fillLevels) lemmas -/

theorem allEntries_nil : allEntries [] = [] := rfl

theorem allEntries_cons (k : PriceLevel) (q : List OrderEntry) (rest : BookSide) :
    allEntries ((k, q) :: rest) = q ++ allEntries rest := by
  simp [allEntries]

theorem sideIds_nil : sideIds [] = [] := rfl

theorem sideIds_cons (k : PriceLevel) (q : List OrderEntry) (rest : BookSide) :
    sideIds ((k, q) :: rest) = q.map (·.id) ++ sideIds rest := by
  simp [sideIds, allEntries]

theorem sideIds_append (m1 m2 : BookSide) :
    sideIds (m1 ++ m2) = sideIds m1 ++ sideIds m2 := by
  simp [sideIds, allEntries]

theorem fillLevels_sum (tid : Uuid) (fc : FeeConfig) (stop : PriceLevel → Bool) :
    ∀ (levels : BookSide) (amount : ℚ),
    ((fillLevels tid fc stop amount levels).1.map (·.amount)).sum =
      amount - (fillLevels tid fc stop amount levels).2.1 := by
  intro levels
  induction levels with
  | nil => intro amount; simp [fillLevels]
  | cons hd rest ih =>
    rcases hd with ⟨k0, q0⟩
    intro amount
    by_cases h0 : amount ≤ 0
    · simp [fillLevels, if_pos h0]
    · by_cases h1 : stop k0
      · simp [fillLevels, if_neg h0, if_pos h1]
      · simp only [fillLevels, if_neg h0, if_neg h1, List.map_append, List.sum_append]
        rw [fillQueue_sum, ih]
        ring

theorem perm_shuffle {a : Type} (A B C S : List a) :
    List.Perm ((A ++ B) ++ (C ++ S)) ((A ++ C) ++ (B ++ S)) := by
  rw [List.append_assoc, List.append_assoc]
  apply List.Perm.append_left
  rw [← List.append_assoc, ← List.append_assoc]
  exact List.Perm.append_right _ List.perm_append_comm

theorem fillLevels_ids_perm (tid : Uuid) (fc : FeeConfig) (stop : PriceLevel → Bool) :
    ∀ (levels : BookSide) (amount : ℚ),
    List.Perm (sideIds levels)
      ((fillLevels tid fc stop amount levels).2.2.2 ++
        sideIds (fillLevels tid fc stop amount levels).2.2.1) := by
  intro levels
  induction levels with
  | nil => intro amount; simp [fillLevels]
  | cons hd rest ih =>
    rcases hd with ⟨k0, q0⟩
    intro amount
    by_cases h0 : amount ≤ 0
    · simp [fillLevels, if_pos h0]
    · by_cases h1 : stop k0
      · simp [fillLevels, if_neg h0, if_pos h1]
      · simp only [fillLevels, if_neg h0, if_neg h1]
        rw [sideIds_cons, ← fillQueue_ids tid fc q0 amount]
        have hperm := ih (fillQueue tid fc amount q0).2.1
        by_cases he : (fillQueue tid fc amount q0).2.2.1.isEmpty
        · rw [if_pos he]
          have hnil : (fillQueue tid fc amount q0).2.2.1 = [] := List.isEmpty_iff.mp he
          rw [hnil]
          simp only [List.map_nil, List.append_nil, List.append_assoc]
          exact List.Perm.append_left _ hperm
        · rw [if_neg he, sideIds_cons]
          exact (List.Perm.append_left _ hperm).trans (perm_shuffle _ _ _ _)

theorem fillLevels_trade_src (tid : Uuid) (fc : FeeConfig) (stop : PriceLevel → Bool) :
    ∀ (levels : BookSide) (amount : ℚ),
    ∀ t ∈ (fillLevels tid fc stop amount levels).1,
      ∃ k q, (k, q) ∈ levels ∧ stop k = false ∧
        ∃ e ∈ q, t.maker_order_id = e.id ∧ t.price = e.price := by
  intro levels
  induction levels with
  | nil => intro amount t ht; simp [fillLevels] at ht
  | cons hd rest ih =>
    rcases hd with ⟨k0, q0⟩
    intro amount t ht
    by_cases h0 : amount ≤ 0
    · simp [fillLevels, if_pos h0] at ht
    · by_cases h1 : stop k0
      · simp [fillLevels, if_neg h0, if_pos h1] at ht
      · simp only [fillLevels, if_neg h0, if_neg h1] at ht
        rcases List.mem_append.mp ht with ht | ht
        · rcases fillQueue_trade_src tid fc q0 amount t ht with ⟨e, he, ha, hb⟩
          exact ⟨k0, q0, List.mem_cons_self _ _, Bool.eq_false_iff.mpr h1, e, he, ha, hb⟩
        · rcases ih _ t ht with ⟨k, q, hk, hs, e, he, ha, hb⟩
          exact ⟨k, q, List.mem_cons_of_mem _ hk, hs, e, he, ha, hb⟩

theorem fillLevels_fees (tid : Uuid) (fc : FeeConfig) (stop : PriceLevel → Bool) :
    ∀ (levels : BookSide) (amount : ℚ),
    ∀ t ∈ (fillLevels tid fc stop amount levels).1,
      t.maker_fee = t.amount * t.price * fc.maker_fee_rate ∧
      t.taker_fee = t.amount * t.price * fc.taker_fee_rate ∧
      t.taker_order_id = tid := by
  intro levels
  induction levels with
  | nil => intro amount t ht; simp [fillLevels] at ht
  | cons hd rest ih =>
    rcases hd with ⟨k0, q0⟩
    intro amount t ht
    by_cases h0 : amount ≤ 0
    · simp [fillLevels, if_pos h0] at ht
    · by_cases h1 : stop k0
      · simp [fillLevels, if_neg h0, if_pos h1] at ht
      · simp only [fillLevels, if_neg h0, if_neg h1] at ht
        rcases List.mem_append.mp ht with ht | ht
        · exact fillQueue_fees tid fc q0 amount t ht
        · exact ih _ t ht

theorem fillLevels_keys_sublist (tid : Uuid) (fc : FeeConfig) (stop : PriceLevel → Bool) :
    ∀ (levels : BookSide) (amount : ℚ),
    List.Sublist ((fillLevels tid fc stop amount levels).2.2.1.map Prod.fst)
      (levels.map Prod.fst) := by
  intro levels
  induction levels with
  | nil => intro amount; simp [fillLevels]
  | cons hd rest ih =>
    rcases hd with ⟨k0, q0⟩
    intro amount
    by_cases h0 : amount ≤ 0
    · simp [fillLevels, if_pos h0]
    · by_cases h1 : stop k0
      · simp [fillLevels, if_pos h1, if_neg h0]
      · simp only [fillLevels, if_neg h0, if_neg h1]
        by_cases he : (fillQueue tid fc amount q0).2.2.1.isEmpty
        · rw [if_pos he]
          exact (ih _).trans (List.sublist_cons_self _ _)
        · rw [if_neg he]
          simp only [List.map_cons]
          exact List.Sublist.cons₂ _ (ih _)

theorem fillLevels_noEmpty (tid : Uuid) (fc : FeeConfig) (stop : PriceLevel → Bool) :
    ∀ (levels : BookSide) (amount : ℚ),
    (∀ p ∈ levels, p.2 ≠ []) →
    ∀ p ∈ (fillLevels tid fc stop amount levels).2.2.1, p.2 ≠ [] := by
  intro levels
  induction levels with
  | nil => intro amount _ p hp; simp [fillLevels] at hp
  | cons hd rest ih =>
    rcases hd with ⟨k0, q0⟩
    intro amount hne p hp
    by_cases h0 : amount ≤ 0
    · simp only [fillLevels, if_pos h0] at hp
      exact hne p hp
    · by_cases h1 : stop k0
      · simp only [fillLevels, if_neg h0, if_pos h1] at hp
        exact hne p hp
      · simp only [fillLevels, if_neg h0, if_neg h1] at hp
        have hrest : ∀ p ∈ rest, p.2 ≠ [] := fun p hp => hne p (List.mem_cons_of_mem _ hp)
        by_cases he : (fillQueue tid fc amount q0).2.2.1.isEmpty
        · rw [if_pos he] at hp
          exact ih _ hrest p hp
        · rw [if_neg he] at hp
          rcases List.mem_cons.mp hp with hp | hp
          · rw [hp]
            simpa using List.isEmpty_iff.not.mp he
          · exact ih _ hrest p hp

theorem fillLevels_entry_src (tid : Uuid) (fc : FeeConfig) (stop : PriceLevel → Bool) :
    ∀ (levels : BookSide) (amount : ℚ),
    ∀ p ∈ (fillLevels tid fc stop amount levels).2.2.1,
      ∃ q, (p.1, q) ∈ levels ∧
        ∀ e' ∈ p.2, ∃ e ∈ q, e'.id = e.id ∧ e'.price = e.price ∧
          e'.remaining_amount ≤ e.remaining_amount := by
  intro levels
  induction levels with
  | nil => intro amount p hp; simp [fillLevels] at hp
  | cons hd rest ih =>
    rcases hd with ⟨k0, q0⟩
    intro amount p hp
    by_cases h0 : amount ≤ 0
    · simp only [fillLevels, if_pos h0] at hp
      rcases List.mem_cons.mp hp with hp | hp
      · exact ⟨p.2, by rw [hp]; exact List.mem_cons_self _ _,
          fun e' he' => ⟨e', he', rfl, rfl, le_refl _⟩⟩
      · exact ⟨p.2, List.mem_cons_of_mem _ (by rw [← @Prod.mk.eta _ _ p]; exact hp),
          fun e' he' => ⟨e', he', rfl, rfl, le_refl _⟩⟩
    · by_cases h1 : stop k0
      · simp only [fillLevels, if_neg h0, if_pos h1] at hp
        rcases List.mem_cons.mp hp with hp | hp
        · exact ⟨p.2, by rw [hp]; exact List.mem_cons_self _ _,
            fun e' he' => ⟨e', he', rfl, rfl, le_refl _⟩⟩
        · exact ⟨p.2, List.mem_cons_of_mem _ (by rw [← @Prod.mk.eta _ _ p]; exact hp),
            fun e' he' => ⟨e', he', rfl, rfl, le_refl _⟩⟩
      · simp only [fillLevels, if_neg h0, if_neg h1] at hp
        by_cases he : (fillQueue tid fc amount q0).2.2.1.isEmpty
        · rw [if_pos he] at hp
          rcases ih _ p hp with ⟨q, hq, hrel⟩
          exact ⟨q, List.mem_cons_of_mem _ hq, hrel⟩
        · rw [if_neg he] at hp
          rcases List.mem_cons.mp hp with hp | hp
          · refine ⟨q0, ?_, ?_⟩
            · have hp1 : p.1 = k0 := by rw [hp]
              rw [hp1]
              exact List.mem_cons_self _ _
            · intro e' he'
              have hp2 : p.2 = (fillQueue tid fc amount q0).2.2.1 := by rw [hp]
              rw [hp2] at he'
              exact fillQueue_entry_src tid fc q0 amount e' he'
          · rcases ih _ p hp with ⟨q, hq, hrel⟩
            exact ⟨q, List.mem_cons_of_mem _ hq, hrel⟩

theorem fillLevels_pos (tid : Uuid) (fc : FeeConfig) (stop : PriceLevel → Bool) :
    ∀ (levels : BookSide) (amount : ℚ),
    PosSide levels → PosSide (fillLevels tid fc stop amount levels).2.2.1 := by
  intro levels
  induction levels with
  | nil => intro amount _ e' he'; simp [fillLevels, PosSide, allEntries] at he'
  | cons hd rest ih =>
    rcases hd with ⟨k0, q0⟩
    intro amount hpos e' he'
    have hq0 : ∀ e ∈ q0, 0 < e.remaining_amount := by
      intro e he
      exact hpos e (by rw [allEntries_cons]; exact List.mem_append_left _ he)
    have hrest : PosSide rest := by
      intro e he
      exact hpos e (by rw [allEntries_cons]; exact List.mem_append_right _ he)
    by_cases h0 : amount ≤ 0
    · simp only [fillLevels, if_pos h0] at he'
      exact hpos e' he'
    · by_cases h1 : stop k0
      · simp only [fillLevels, if_neg h0, if_pos h1] at he'
        exact hpos e' he'
      · simp only [fillLevels, if_neg h0, if_neg h1] at he'
        by_cases he : (fillQueue tid fc amount q0).2.2.1.isEmpty
        · rw [if_pos he] at he'
          exact ih _ hrest e' he'
        · rw [if_neg he] at he'
          rw [allEntries_cons] at he'
          rcases List.mem_append.mp he' with he' | he'
          · exact fillQueue_pos tid fc q0 amount hq0 e' he'
          · exact ih _ hrest e' he'

/-! ## Map and index helper lemmas -/

theorem mem_allEntries {levels : BookSide} {k : PriceLevel} {q : List OrderEntry}
    (hk : (k, q) ∈ levels) {e : OrderEntry} (he : e ∈ q) : e ∈ allEntries levels := by
  simp only [allEntries, List.mem_join]
  exact ⟨q, List.mem_map.mpr ⟨(k, q), hk, rfl⟩, he⟩

theorem mem_sideIds {levels : BookSide} {k : PriceLevel} {q : List OrderEntry}
    (hk : (k, q) ∈ levels) {e : OrderEntry} (he : e ∈ q) : e.id ∈ sideIds levels :=
  List.mem_map.mpr ⟨e, mem_allEntries hk he, rfl⟩

theorem mapGet_cons (k0 : PriceLevel) (q0 : List OrderEntry) (rest : BookSide)
    (k : PriceLevel) :
    mapGet ((k0, q0) :: rest) k = if k0 = k then some q0 else mapGet rest k := by
  by_cases h : k0 = k
  · simp [mapGet, List.find?_cons, h]
  · simp only [mapGet, List.find?_cons]
    have : (decide ((k0, q0).1 = k)) = false := by simpa using h
    rw [this]
    simp [mapGet, if_neg h]

theorem mapGet_some_key {m : BookSide} {k : PriceLevel} {q : List OrderEntry}
    (h : mapGet m k = some q) : (k, q) ∈ m ∧ k ∈ m.map Prod.fst := by
  rcases Option.map_eq_some'.mp h with ⟨p, hp, hq⟩
  have hmem := List.mem_of_find?_eq_some hp
  have hkey : p.1 = k := by simpa using List.find?_some hp
  constructor
  · have : p = (k, q) := by
      rcases p with ⟨a, b⟩
      simp only at hkey hq
      rw [hkey, hq]
    rw [← this]
    exact hmem
  · exact List.mem_map.mpr ⟨p, hmem, hkey⟩

theorem mapGet_eq_none {m : BookSide} {k : PriceLevel}
    (h : k ∉ m.map Prod.fst) : mapGet m k = none := by
  rw [mapGet, List.find?_eq_none.mpr, Option.map_none']
  intro p hp hk
  exact h (List.mem_map.mpr ⟨p, hp, by simpa using hk⟩)

theorem mapGet_mem {m : BookSide} {k : PriceLevel} {q : List OrderEntry}
    (hnd : (m.map Prod.fst).Nodup) (h : (k, q) ∈ m) : mapGet m k = some q := by
  induction m with
  | nil => simp at h
  | cons hd rest ih =>
    rcases hd with ⟨k0, q0⟩
    simp only [List.map_cons, List.nodup_cons] at hnd
    rcases List.mem_cons.mp h with h | h
    · rcases Prod.mk.injEq .. ▸ h with ⟨hk, hq⟩
      rw [mapGet_cons, if_pos hk.symm, hq]
    · rw [mapGet_cons]
      have : k0 ≠ k := by
        intro hc
        exact hnd.1 (hc ▸ List.mem_map.mpr ⟨(k, q), h, rfl⟩)
      rw [if_neg this]
      exact ih hnd.2 h

theorem mapGet_none_key {m : BookSide} {k : PriceLevel}
    (h : mapGet m k = none) : k ∉ m.map Prod.fst := by
  intro hc
  rcases List.mem_map.mp hc with ⟨p, hp, hk⟩
  have : (m.find? (fun p => p.1 = k)).map (·.2) = none := h
  rcases Option.map_eq_none'.mp this with hnone
  have := List.find?_eq_none.mp hnone p hp
  simp [hk] at this

theorem mapGet_reverse {m : BookSide} (hnd : (m.map Prod.fst).Nodup)
    (k : PriceLevel) : mapGet m.reverse k = mapGet m k := by
  rcases ho : mapGet m k with _ | q
  · apply mapGet_eq_none
    rw [List.map_reverse, List.mem_reverse]
    exact mapGet_none_key ho
  · have hmem := (mapGet_some_key ho).1
    have hndr : (m.reverse.map Prod.fst).Nodup := by
      rw [List.map_reverse]
      exact List.nodup_reverse.mpr hnd
    exact mapGet_mem hndr (List.mem_reverse.mpr hmem)

theorem sideIds_reverse (m : BookSide) :
    List.Perm (sideIds m.reverse) (sideIds m) := by
  induction m with
  | nil => simp
  | cons hd rest ih =>
    rcases hd with ⟨k0, q0⟩
    rw [List.reverse_cons, sideIds_append, sideIds_cons, sideIds_cons, sideIds_nil,
      List.append_nil]
    exact (List.Perm.append_right _ ih).trans List.perm_append_comm

theorem allEntries_reverse (m : BookSide) :
    List.Perm (allEntries m.reverse) (allEntries m) := by
  induction m with
  | nil => simp
  | cons hd rest ih =>
    rcases hd with ⟨k0, q0⟩
    rw [List.reverse_cons]
    have h2 : allEntries (rest.reverse ++ [(k0, q0)]) =
        allEntries rest.reverse ++ (q0 ++ []) := by
      simp [allEntries]
    rw [allEntries_cons, h2, List.append_nil]
    exact (List.Perm.append_right _ ih).trans List.perm_append_comm

theorem mem_foldl_indexErase (rm : List Uuid) :
    ∀ (idx : List (Uuid × Side × PriceLevel)) (x : Uuid × Side × PriceLevel),
    x ∈ rm.foldl indexErase idx ↔ x ∈ idx ∧ x.1 ∉ rm := by
  induction rm with
  | nil => intro idx x; simp
  | cons r rm ih =>
    intro idx x
    rw [List.foldl_cons, ih]
    simp only [indexErase, List.mem_filter, List.mem_cons]
    constructor
    · rintro ⟨⟨hx, hr⟩, hrm⟩
      refine ⟨hx, ?_⟩
      intro hc
      rcases hc with hc | hc
      · simp [hc] at hr
      · exact hrm hc
    · rintro ⟨hx, hno⟩
      push_neg at hno
      exact ⟨⟨hx, by simpa using hno.1⟩, hno.2⟩

theorem foldl_indexErase_sublist (rm : List Uuid) :
    ∀ (idx : List (Uuid × Side × PriceLevel)),
    List.Sublist (rm.foldl indexErase idx) idx := by
  induction rm with
  | nil => intro idx; simp
  | cons r rm ih =>
    intro idx
    rw [List.foldl_cons]
    exact (ih _).trans (List.filter_sublist _)

/-! ## fillLevels: accounting, FIFO and lookup lemmas -/

theorem fillLevels_rm_sub (tid : Uuid) (fc : FeeConfig) (stop : PriceLevel → Bool)
    (levels : BookSide) (amount : ℚ) :
    ∀ id ∈ (fillLevels tid fc stop amount levels).2.2.2, id ∈ sideIds levels := by
  intro id hid
  exact (fillLevels_ids_perm tid fc stop levels amount).mem_iff.mpr
    (List.mem_append_left _ hid)

theorem fillLevels_accounting (tid : Uuid) (fc : FeeConfig) (stop : PriceLevel → Bool) :
    ∀ (levels : BookSide) (amount : ℚ),
    (sideIds levels).Nodup →
    ∀ e ∈ allEntries levels,
      (e.id ∈ (fillLevels tid fc stop amount levels).2.2.2 →
        suppliedBy (fillLevels tid fc stop amount levels).1 e.id = e.remaining_amount) ∧
      (e.id ∉ (fillLevels tid fc stop amount levels).2.2.2 →
        ∃ e' ∈ allEntries (fillLevels tid fc stop amount levels).2.2.1,
          e'.id = e.id ∧
          e'.remaining_amount =
            e.remaining_amount - suppliedBy (fillLevels tid fc stop amount levels).1 e.id) := by
  intro levels
  induction levels with
  | nil => intro amount _ e he; simp [allEntries] at he
  | cons hd rest ih =>
    rcases hd with ⟨k0, q0⟩
    intro amount hnd e he
    rw [sideIds_cons, List.nodup_append] at hnd
    rw [allEntries_cons] at he
    by_cases h0 : amount ≤ 0
    · simp only [fillLevels, if_pos h0]
      constructor
      · intro hmem; simp at hmem
      · intro _
        refine ⟨e, ?_, rfl, by simp [suppliedBy]⟩
        rw [allEntries_cons]
        exact he
    · by_cases h1 : stop k0
      · simp only [fillLevels, if_neg h0, if_pos h1]
        constructor
        · intro hmem; simp at hmem
        · intro _
          refine ⟨e, ?_, rfl, by simp [suppliedBy]⟩
          rw [allEntries_cons]
          exact he
      · simp only [fillLevels, if_neg h0, if_neg h1]
        have hnd0 : (q0.map (·.id)).Nodup := hnd.1
        have hndr : (sideIds rest).Nodup := hnd.2.1
        have hdisj : ∀ a ∈ q0.map (·.id), a ∉ sideIds rest := fun a ha => hnd.2.2 ha
        have htsq := fillQueue_trade_src tid fc q0 amount
        have hts2 := fillLevels_trade_src tid fc stop rest (fillQueue tid fc amount q0).2.1
        rcases List.mem_append.mp he with he | he
        · -- e rests at the first traversed level
          have heid : e.id ∈ q0.map (·.id) := List.mem_map.mpr ⟨e, he, rfl⟩
          have hsup2 : suppliedBy
              (fillLevels tid fc stop (fillQueue tid fc amount q0).2.1 rest).1 e.id = 0 := by
            apply suppliedBy_eq_zero
            intro t ht hc
            rcases hts2 t ht with ⟨k, q, hkq, _, e2, he2, hmk, _⟩
            exact hdisj e.id heid (hc ▸ hmk ▸ mem_sideIds hkq he2)
          have hacct := fillQueue_accounting tid fc q0 amount hnd0 e he
          constructor
          · intro hmem
            rw [suppliedBy_append, hsup2, add_zero]
            rcases List.mem_append.mp hmem with hmem | hmem
            · exact hacct.1 hmem
            · exfalso
              exact hdisj e.id heid
                (fillLevels_rm_sub tid fc stop rest _ e.id hmem)
          · intro hmem
            have hniq : e.id ∉ (fillQueue tid fc amount q0).2.2.2 :=
              fun hc => hmem (List.mem_append_left _ hc)
            have hin' : e.id ∈ (fillQueue tid fc amount q0).2.2.1.map (·.id) := by
              have := fillQueue_ids tid fc q0 amount
              rcases List.mem_append.mp (this ▸ heid) with hc | hc
              · exact absurd hc hniq
              · exact hc
            rcases List.mem_map.mp hin' with ⟨e', he', hid'⟩
            have hne : ¬(fillQueue tid fc amount q0).2.2.1.isEmpty := by
              intro hc
              rw [List.isEmpty_iff.mp hc] at he'
              simp at he'
            refine ⟨e', ?_, hid', ?_⟩
            · rw [if_neg hne, allEntries_cons]
              exact List.mem_append_left _ he'
            · rw [suppliedBy_append, hsup2, add_zero]
              exact hacct.2 e' he' hid'
        · -- e rests at a later level
          have heid : e.id ∈ sideIds rest := List.mem_map.mpr ⟨e, he, rfl⟩
          have hsupq : suppliedBy (fillQueue tid fc amount q0).1 e.id = 0 := by
            apply suppliedBy_eq_zero
            intro t ht hc
            rcases htsq t ht with ⟨e2, he2, hmk, _⟩
            exact hdisj e.id (hc ▸ hmk ▸ List.mem_map.mpr ⟨e2, he2, rfl⟩) heid
          have hrec := ih (fillQueue tid fc amount q0).2.1 hndr e he
          constructor
          · intro hmem
            rw [suppliedBy_append, hsupq, zero_add]
            rcases List.mem_append.mp hmem with hmem | hmem
            · exfalso
              have hsubq : e.id ∈ q0.map (·.id) := by
                have := fillQueue_ids tid fc q0 amount
                exact this ▸ List.mem_append_left _ hmem
              exact hdisj e.id hsubq heid
            · exact hrec.1 hmem
          · intro hmem
            have hn2 : e.id ∉ (fillLevels tid fc stop (fillQueue tid fc amount q0).2.1 rest).2.2.2 :=
              fun hc => hmem (List.mem_append_right _ hc)
            rcases hrec.2 hn2 with ⟨e', he', hid', hrem⟩
            refine ⟨e', ?_, hid', ?_⟩
            · by_cases hne : (fillQueue tid fc amount q0).2.2.1.isEmpty
              · rw [if_pos hne]
                exact he'
              · rw [if_neg hne, allEntries_cons]
                exact List.mem_append_right _ he'
            · rw [suppliedBy_append, hsupq, zero_add]
              exact hrem

theorem fillLevels_fifo (tid : Uuid) (fc : FeeConfig) (stop : PriceLevel → Bool) :
    ∀ (levels : BookSide) (amount : ℚ),
    (sideIds levels).Nodup →
    ∀ (k : PriceLevel) (q : List OrderEntry), (k, q) ∈ levels →
    ∀ (l1 : List OrderEntry) (e1 : OrderEntry) (l2 : List OrderEntry)
      (e2 : OrderEntry) (l3 : List OrderEntry),
    q = l1 ++ e1 :: l2 ++ e2 :: l3 →
    (∃ t ∈ (fillLevels tid fc stop amount levels).1, t.maker_order_id = e2.id) →
    ∃ t' ∈ (fillLevels tid fc stop amount levels).1,
      t'.maker_order_id = e1.id ∧ t'.amount = e1.remaining_amount ∧
      e1.id ∈ (fillLevels tid fc stop amount levels).2.2.2 := by
  intro levels
  induction levels with
  | nil => intro amount _ k q hk; simp at hk
  | cons hd rest ih =>
    rcases hd with ⟨k0, q0⟩
    intro amount hnd k q hkq l1 e1 l2 e2 l3 hq ⟨t, ht, htm⟩
    rw [sideIds_cons, List.nodup_append] at hnd
    have hdisj : ∀ a ∈ q0.map (·.id), a ∉ sideIds rest := fun a ha => hnd.2.2 ha
    have he2q : e2 ∈ q := by rw [hq]; simp
    by_cases h0 : amount ≤ 0
    · rw [show (fillLevels tid fc stop amount ((k0, q0) :: rest)).1 = [] by
        simp [fillLevels, if_pos h0]] at ht
      simp at ht
    · by_cases h1 : stop k0
      · rw [show (fillLevels tid fc stop amount ((k0, q0) :: rest)).1 = [] by
          simp [fillLevels, if_neg h0, if_pos h1]] at ht
        simp at ht
      · simp only [fillLevels, if_neg h0, if_neg h1] at ht ⊢
        have htsq := fillQueue_trade_src tid fc q0 amount
        have hts2 := fillLevels_trade_src tid fc stop rest (fillQueue tid fc amount q0).2.1
        rcases List.mem_cons.mp hkq with hkq | hkq
        · -- the decomposed queue is the first level's queue
          have hqq : q = q0 := (Prod.mk.injEq .. ▸ hkq).2
          subst hqq
          rcases List.mem_append.mp ht with ht | ht
          · rcases fillQueue_fifo tid fc q amount hnd.1 l1 e1 l2 e2 l3 hq ⟨t, ht, htm⟩
              with ⟨t', ht', ha, hb, hcc⟩
            exact ⟨t', List.mem_append_left _ ht', ha, hb, List.mem_append_left _ hcc⟩
          · exfalso
            rcases hts2 t ht with ⟨kx, qx, hkx, _, ex, hex, hmk, _⟩
            exact hdisj e2.id (List.mem_map.mpr ⟨e2, he2q, rfl⟩)
              (htm ▸ hmk ▸ mem_sideIds hkx hex)
        · -- the decomposed queue rests at a later level
          have he2r : e2.id ∈ sideIds rest := mem_sideIds hkq he2q
          rcases List.mem_append.mp ht with ht | ht
          · exfalso
            rcases htsq t ht with ⟨ex, hex, hmk, _⟩
            exact hdisj e2.id (htm ▸ hmk ▸ List.mem_map.mpr ⟨ex, hex, rfl⟩) he2r
          · rcases ih _ hnd.2.1 k q hkq l1 e1 l2 e2 l3 hq ⟨t, ht, htm⟩
              with ⟨t', ht', ha, hb, hcc⟩
            exact ⟨t', List.mem_append_right _ ht', ha, hb, List.mem_append_right _ hcc⟩

theorem fillLevels_get_fwd (tid : Uuid) (fc : FeeConfig) (stop : PriceLevel → Bool) :
    ∀ (levels : BookSide) (amount : ℚ) (k : PriceLevel) (q : List OrderEntry),
    mapGet levels k = some q →
    ∀ id ∈ q.map (·.id), id ∉ (fillLevels tid fc stop amount levels).2.2.2 →
    ∃ q2, mapGet (fillLevels tid fc stop amount levels).2.2.1 k = some q2 ∧
      id ∈ q2.map (·.id) := by
  intro levels
  induction levels with
  | nil => intro amount k q hget; simp [mapGet] at hget
  | cons hd rest ih =>
    rcases hd with ⟨k0, q0⟩
    intro amount k q hget id hid hnrm
    by_cases h0 : amount ≤ 0
    · simp only [fillLevels, if_pos h0]
      exact ⟨q, hget, hid⟩
    · by_cases h1 : stop k0
      · simp only [fillLevels, if_neg h0, if_pos h1]
        exact ⟨q, hget, hid⟩
      · simp only [fillLevels, if_neg h0, if_neg h1] at hnrm ⊢
        rw [mapGet_cons] at hget
        by_cases hk : k0 = k
        · rw [if_pos hk] at hget
          have hq0 : q = q0 := by
            injection hget with h
            exact h.symm
          subst hq0
          have hniq : id ∉ (fillQueue tid fc amount q).2.2.2 :=
            fun hc => hnrm (List.mem_append_left _ hc)
          have hin' : id ∈ (fillQueue tid fc amount q).2.2.1.map (·.id) := by
            have hids := fillQueue_ids tid fc q amount
            rcases List.mem_append.mp (hids ▸ hid) with hc | hc
            · exact absurd hc hniq
            · exact hc
          have hne : ¬(fillQueue tid fc amount q).2.2.1.isEmpty := by
            intro hc
            rw [List.isEmpty_iff.mp hc] at hin'
            simp at hin'
          rw [if_neg hne, mapGet_cons, if_pos hk]
          exact ⟨_, rfl, hin'⟩
        · rw [if_neg hk] at hget
          have hnrm2 : id ∉ (fillLevels tid fc stop (fillQueue tid fc amount q0).2.1 rest).2.2.2 :=
            fun hc => hnrm (List.mem_append_right _ hc)
          rcases ih _ k q hget id hid hnrm2 with ⟨q2, hget2, hid2⟩
          by_cases hne : (fillQueue tid fc amount q0).2.2.1.isEmpty
          · rw [if_pos hne]
            exact ⟨q2, hget2, hid2⟩
          · rw [if_neg hne, mapGet_cons, if_neg hk]
            exact ⟨q2, hget2, hid2⟩

theorem fillLevels_get_back (tid : Uuid) (fc : FeeConfig) (stop : PriceLevel → Bool) :
    ∀ (levels : BookSide) (amount : ℚ),
    (levels.map Prod.fst).Nodup →
    ∀ (k : PriceLevel) (q2 : List OrderEntry),
    mapGet (fillLevels tid fc stop amount levels).2.2.1 k = some q2 →
    ∃ q, mapGet levels k = some q ∧ ∀ id ∈ q2.map (·.id), id ∈ q.map (·.id) := by
  intro levels
  induction levels with
  | nil => intro amount _ k q2 hget; simp [fillLevels, mapGet] at hget
  | cons hd rest ih =>
    rcases hd with ⟨k0, q0⟩
    intro amount hnd k q2 hget
    simp only [List.map_cons, List.nodup_cons] at hnd
    by_cases h0 : amount ≤ 0
    · simp only [fillLevels, if_pos h0] at hget
      exact ⟨q2, hget, fun id hid => hid⟩
    · by_cases h1 : stop k0
      · simp only [fillLevels, if_neg h0, if_pos h1] at hget
        exact ⟨q2, hget, fun id hid => hid⟩
      · simp only [fillLevels, if_neg h0, if_neg h1] at hget
        by_cases hne : (fillQueue tid fc amount q0).2.2.1.isEmpty
        · rw [if_pos hne] at hget
          rcases ih _ hnd.2 k q2 hget with ⟨q, hq, hsub⟩
          have hk : k0 ≠ k := by
            intro hc
            exact hnd.1 (hc ▸ (mapGet_some_key hq).2)
          rw [mapGet_cons, if_neg hk]
          exact ⟨q, hq, hsub⟩
        · rw [if_neg hne, mapGet_cons] at hget
          by_cases hk : k0 = k
          · rw [if_pos hk] at hget
            have hq2 : q2 = (fillQueue tid fc amount q0).2.2.1 := by
              injection hget with h
              exact h.symm
            rw [mapGet_cons, if_pos hk]
            refine ⟨q0, rfl, ?_⟩
            intro id hid
            have hids := fillQueue_ids tid fc q0 amount
            rw [hq2] at hid
            exact hids ▸ List.mem_append_right _ hid
          · rw [if_neg hk] at hget
            rcases ih _ hnd.2 k q2 hget with ⟨q, hq, hsub⟩
            rw [mapGet_cons, if_neg hk]
            exact ⟨q, hq, hsub⟩

/-! ## The book invariant (claim C6) and reachable states -/

/-- The structural invariant of an `Orderbook`:
price levels strictly sorted per side, no empty level, every entry keyed by the
truncation of its own price, no duplicate resident ids, and the order index in
exact two-way correspondence with the resident entries. -/
structure BookInv (b : Orderbook) : Prop where
  bidsSorted : List.Chain' (· < ·) (b.bids.map Prod.fst)
  asksSorted : List.Chain' (· < ·) (b.asks.map Prod.fst)
  bidsNE : ∀ p ∈ b.bids, p.2 ≠ []
  asksNE : ∀ p ∈ b.asks, p.2 ≠ []
  bidsKey : ∀ p ∈ b.bids, ∀ e ∈ p.2, PriceLevel.fromDecimal e.price = p.1
  asksKey : ∀ p ∈ b.asks, ∀ e ∈ p.2, PriceLevel.fromDecimal e.price = p.1
  idsNodup : (bookIds b).Nodup
  idxKeysNodup : (b.order_index.map (·.1)).Nodup
  idxSound : ∀ x ∈ b.order_index,
    ∃ q, mapGet (b.sideMap x.2.1) x.2.2 = some q ∧ x.1 ∈ q.map (·.id)
  bidsComplete : ∀ p ∈ b.bids, ∀ e ∈ p.2, (e.id, (Side.Buy, p.1)) ∈ b.order_index
  asksComplete : ∀ p ∈ b.asks, ∀ e ∈ p.2, (e.id, (Side.Sell, p.1)) ∈ b.order_index

/-- Books reachable from the empty book by the three mutating operations, with
pairwise-distinct ids across add_order calls (an id currently resident is never
re-added). -/
inductive Reachable : Orderbook → Prop where
  | empty : Reachable Orderbook.new
  | add {b : Orderbook} {e : OrderEntry} : Reachable b → e.id ∉ bookIds b →
      Reachable (b.addOrder e)
  | cancel {b : Orderbook} (id : Uuid) : Reachable b →
      Reachable (b.cancelOrder id).2
  | matched {b : Orderbook} (tid : Uuid) (side : Side) (amount : ℚ)
      (limit : Option ℚ) (fc : FeeConfig) : Reachable b →
      Reachable (b.matchOrder tid side amount limit fc).2

theorem idx_ids_sub {b : Orderbook} (hInv : BookInv b) :
    ∀ x ∈ b.order_index, x.1 ∈ bookIds b := by
  intro x hx
  rcases hInv.idxSound x hx with ⟨q, hq, hid⟩
  rcases List.mem_map.mp hid with ⟨e, he, hid⟩
  have hmem := (mapGet_some_key hq).1
  rcases x with ⟨id, s, k⟩
  cases s
  · exact hid ▸ List.mem_append_left _ (mem_sideIds hmem he)
  · exact hid ▸ List.mem_append_right _ (mem_sideIds hmem he)

/-! ## mapInsertAppend lemmas and add_order preservation -/

theorem insertAppend_cases (m : BookSide) (k : PriceLevel) (e : OrderEntry) :
    ∀ p ∈ mapInsertAppend m k e,
      p ∈ m ∨ (p.1 = k ∧ ((∃ q, (k, q) ∈ m ∧ p.2 = q ++ [e]) ∨ p.2 = [e])) := by
  induction m with
  | nil =>
    intro p hp
    simp only [mapInsertAppend] at hp
    rcases List.mem_singleton.mp hp with rfl
    exact Or.inr ⟨rfl, Or.inr rfl⟩
  | cons hd rest ih =>
    rcases hd with ⟨k', q⟩
    intro p hp
    simp only [mapInsertAppend] at hp
    by_cases h1 : k < k'
    · rw [if_pos h1] at hp
      rcases List.mem_cons.mp hp with hp | hp
      · exact Or.inr ⟨by rw [hp], Or.inr (by rw [hp])⟩
      · exact Or.inl hp
    · rw [if_neg h1] at hp
      by_cases h2 : k = k'
      · rw [if_pos h2] at hp
        rcases List.mem_cons.mp hp with hp | hp
        · exact Or.inr ⟨by rw [hp, h2], Or.inl ⟨q, by rw [h2]; exact List.mem_cons_self _ _,
            by rw [hp]⟩⟩
        · exact Or.inl (List.mem_cons_of_mem _ hp)
      · rw [if_neg h2] at hp
        rcases List.mem_cons.mp hp with hp | hp
        · exact Or.inl (hp ▸ List.mem_cons_self _ _)
        · rcases ih p hp with h | ⟨ha, hb⟩
          · exact Or.inl (List.mem_cons_of_mem _ h)
          · refine Or.inr ⟨ha, ?_⟩
            rcases hb with ⟨q2, hq2, hb⟩ | hb
            · exact Or.inl ⟨q2, List.mem_cons_of_mem _ hq2, hb⟩
            · exact Or.inr hb

theorem insertAppend_sorted (k : PriceLevel) (e : OrderEntry) :
    ∀ (m : BookSide), List.Chain' (· < ·) (m.map Prod.fst) →
    List.Chain' (· < ·) ((mapInsertAppend m k e).map Prod.fst) := by
  intro m
  induction m with
  | nil => intro _; simp [mapInsertAppend]
  | cons hd rest ih =>
    rcases hd with ⟨k', q⟩
    intro hch
    simp only [List.map_cons, List.chain'_cons'] at hch
    simp only [mapInsertAppend]
    by_cases h1 : k < k'
    · rw [if_pos h1]
      simp only [List.map_cons, List.chain'_cons']
      exact ⟨fun y hy => by simp at hy; rw [← hy]; exact h1,
        hch.1, hch.2⟩
    · rw [if_neg h1]
      by_cases h2 : k = k'
      · rw [if_pos h2]
        simp only [List.map_cons, List.chain'_cons']
        exact ⟨hch.1, hch.2⟩
      · rw [if_neg h2]
        simp only [List.map_cons, List.chain'_cons']
        refine ⟨?_, ih hch.2⟩
        intro y hy
        have hk' : k' < k := lt_of_le_of_ne (not_lt.mp h1) (Ne.symm h2)
        cases rest with
        | nil =>
          simp [mapInsertAppend] at hy
          rw [← hy]
          exact hk'
        | cons hd2 rest2 =>
          rcases hd2 with ⟨k2, q2⟩
          simp only [mapInsertAppend] at hy
          by_cases h3 : k < k2
          · rw [if_pos h3] at hy
            simp at hy
            rw [← hy]
            exact hk'
          · rw [if_neg h3] at hy
            by_cases h4 : k = k2
            · rw [if_pos h4] at hy
              simp at hy
              rw [← hy]
              exact hch.1 k2 (by simp)
            · rw [if_neg h4] at hy
              simp at hy
              rw [← hy]
              exact hch.1 k2 (by simp)

theorem insertAppend_get_self (k : PriceLevel) (e : OrderEntry) :
    ∀ (m : BookSide), List.Chain' (· < ·) (m.map Prod.fst) →
    mapGet (mapInsertAppend m k e) k = some ((mapGet m k).getD [] ++ [e]) := by
  intro m
  induction m with
  | nil => intro _; simp [mapInsertAppend, mapGet]
  | cons hd rest ih =>
    rcases hd with ⟨k', q⟩
    intro hch
    simp only [List.map_cons, List.chain'_cons'] at hch
    simp only [mapInsertAppend]
    by_cases h1 : k < k'
    · rw [if_pos h1, mapGet_cons, if_pos rfl, mapGet_cons, if_neg (ne_of_gt h1)]
      have : mapGet rest k = none := by
        apply mapGet_eq_none
        intro hc
        have hlt := hch.1
        -- every key of rest is greater than k', hence greater than k
        have : ∀ x ∈ rest.map Prod.fst, k' < x := by
          cases rest with
          | nil => intro x hx; simp at hx
          | cons hd2 rest2 =>
            have hpw : List.Pairwise (· < ·) (k' :: (hd2 :: rest2).map Prod.fst) := by
              rw [← List.chain'_iff_pairwise]
              rw [List.chain'_cons']
              exact ⟨hch.1, hch.2⟩
            intro x hx
            exact (List.pairwise_cons.mp hpw).1 x hx
        have := this k hc
        exact absurd (h1.trans this) (lt_irrefl k)
      rw [this]
      rfl
    · rw [if_neg h1]
      by_cases h2 : k = k'
      · rw [if_pos h2, mapGet_cons, if_pos h2.symm, mapGet_cons, if_pos h2.symm]
        rfl
      · rw [if_neg h2, mapGet_cons, if_neg (fun hc => h2 (Eq.symm hc)), mapGet_cons,
          if_neg (fun hc => h2 (Eq.symm hc))]
        exact ih hch.2

theorem insertAppend_get_other (k : PriceLevel) (e : OrderEntry) :
    ∀ (m : BookSide) (k2 : PriceLevel), k2 ≠ k →
    mapGet (mapInsertAppend m k e) k2 = mapGet m k2 := by
  intro m
  induction m with
  | nil =>
    intro k2 hne
    simp only [mapInsertAppend, mapGet_cons, if_neg (Ne.symm hne)]
  | cons hd rest ih =>
    rcases hd with ⟨k', q⟩
    intro k2 hne
    simp only [mapInsertAppend]
    by_cases h1 : k < k'
    · rw [if_pos h1, mapGet_cons, if_neg (Ne.symm hne)]
    · rw [if_neg h1]
      by_cases h2 : k = k'
      · rw [if_pos h2, mapGet_cons, mapGet_cons]
        by_cases h3 : k' = k2
        · exact absurd (h2.trans h3) (Ne.symm hne)
        · rw [if_neg h3, if_neg h3]
      · rw [if_neg h2, mapGet_cons, mapGet_cons]
        by_cases h3 : k' = k2
        · rw [if_pos h3, if_pos h3]
        · rw [if_neg h3, if_neg h3]
          exact ih k2 hne

theorem insertAppend_sideIds (k : PriceLevel) (e : OrderEntry) :
    ∀ (m : BookSide),
    List.Perm (sideIds (mapInsertAppend m k e)) (sideIds m ++ [e.id]) := by
  intro m
  induction m with
  | nil =>
    simp only [mapInsertAppend, sideIds_cons, sideIds_nil, List.map_cons, List.map_nil]
    simp
  | cons hd rest ih =>
    rcases hd with ⟨k', q⟩
    simp only [mapInsertAppend]
    by_cases h1 : k < k'
    · rw [if_pos h1]
      simp only [sideIds_cons, List.map_cons, List.map_nil, List.nil_append]
      exact @List.perm_append_comm _ [e.id] _
    · rw [if_neg h1]
      by_cases h2 : k = k'
      · rw [if_pos h2]
        simp only [sideIds_cons, List.map_append, List.map_cons, List.map_nil,
          List.append_assoc]
        exact List.Perm.append_left _ (@List.perm_append_comm _ [e.id] _)
      · rw [if_neg h2]
        simp only [sideIds_cons, List.append_assoc]
        exact List.Perm.append_left _ ih

theorem addOrder_queue (b : Orderbook) (e : OrderEntry)
    (hs : List.Chain' (· < ·) ((b.sideMap e.side).map Prod.fst)) :
    mapGet ((b.addOrder e).sideMap e.side) (PriceLevel.fromDecimal e.price) =
      some ((mapGet (b.sideMap e.side) (PriceLevel.fromDecimal e.price)).getD [] ++ [e]) := by
  rcases hside : e.side with _ | _ <;>
    simp only [Orderbook.addOrder, Orderbook.sideMap, hside] <;>
    rw [hside] at hs <;>
    exact insertAppend_get_self _ e _ (by simpa [Orderbook.sideMap] using hs)

theorem BookInv_addOrder {b : Orderbook} {e : OrderEntry} (hInv : BookInv b)
    (hfresh : e.id ∉ bookIds b) : BookInv (b.addOrder e) := by
  have hidx_id : ∀ x ∈ b.order_index, x.1 ≠ e.id :=
    fun x hx hc => hfresh (hc ▸ idx_ids_sub hInv x hx)
  have hfilter : b.order_index.filter (fun p => p.1 ≠ e.id) = b.order_index :=
    List.filter_eq_self.mpr (fun x hx => by simpa using hidx_id x hx)
  have hfreshB : e.id ∉ sideIds b.bids := fun hc => hfresh (List.mem_append_left _ hc)
  have hfreshA : e.id ∉ sideIds b.asks := fun hc => hfresh (List.mem_append_right _ hc)
  have hnodup_new : ((bookIds b) ++ [e.id]).Nodup := by
    refine List.Nodup.append hInv.idsNodup (List.nodup_singleton _) ?_
    intro a ha hb
    rw [List.mem_singleton.mp hb] at ha
    exact hfresh ha
  rcases hside : e.side with _ | _
  case Buy =>
    have hb1 : b.addOrder e =
        { bids := mapInsertAppend b.bids (PriceLevel.fromDecimal e.price) e
          asks := b.asks
          order_index := (e.id, (Side.Buy, PriceLevel.fromDecimal e.price)) :: b.order_index } := by
      simp only [Orderbook.addOrder, hside, indexInsert, hfilter]
    rw [hb1]
    constructor
    · exact insertAppend_sorted _ e _ hInv.bidsSorted
    · exact hInv.asksSorted
    · intro p hp
      rcases insertAppend_cases _ _ _ p hp with h | ⟨_, h⟩
      · exact hInv.bidsNE p h
      · rcases h with ⟨q, _, h⟩ | h <;> simp [h]
    · exact hInv.asksNE
    · intro p hp e2 he2
      rcases insertAppend_cases _ _ _ p hp with h | ⟨hk, h⟩
      · exact hInv.bidsKey p h e2 he2
      · rcases h with ⟨q, hq, h⟩ | h
        · rw [h] at he2
          rcases List.mem_append.mp he2 with he2 | he2
          · rw [hk]
            exact hInv.bidsKey (PriceLevel.fromDecimal e.price, q) hq e2 he2
          · rw [List.mem_singleton.mp he2, hk]
        · rw [h] at he2
          rw [List.mem_singleton.mp he2, hk]
    · intro p hp e2 he2
      exact hInv.asksKey p hp e2 he2
    · -- ids nodup
      show (sideIds (mapInsertAppend b.bids (PriceLevel.fromDecimal e.price) e) ++
        sideIds b.asks).Nodup
      refine (List.Perm.nodup_iff ?_).mpr hnodup_new
      refine (List.Perm.append_right _ (insertAppend_sideIds _ e _)).trans ?_
      show List.Perm _ ((sideIds b.bids ++ sideIds b.asks) ++ [e.id])
      rw [List.append_assoc, List.append_assoc]
      exact List.Perm.append_left _ List.perm_append_comm
    · dsimp only
      simp only [List.map_cons, List.nodup_cons]
      constructor
      · intro hc
        rcases List.mem_map.mp hc with ⟨x, hx, hid⟩
        exact hidx_id x hx hid
      · exact hInv.idxKeysNodup
    · dsimp only
      intro x hx
      rcases List.mem_cons.mp hx with hx | hx
      · rw [hx]
        refine ⟨(mapGet b.bids (PriceLevel.fromDecimal e.price)).getD [] ++ [e], ?_, by simp⟩
        exact insertAppend_get_self _ e _ hInv.bidsSorted
      · rcases hInv.idxSound x hx with ⟨q, hq, hid⟩
        rcases x with ⟨id, s, key⟩
        rcases s with _ | _
        · simp only [Orderbook.sideMap] at hq ⊢
          by_cases hkey : key = PriceLevel.fromDecimal e.price
          · rw [hkey] at hq ⊢
            refine ⟨(mapGet b.bids (PriceLevel.fromDecimal e.price)).getD [] ++ [e],
              insertAppend_get_self _ e _ hInv.bidsSorted, ?_⟩
            rw [hq]
            simp only [Option.getD_some, List.map_append]
            exact List.mem_append_left _ hid
          · rw [insertAppend_get_other _ e _ key hkey]
            exact ⟨q, hq, hid⟩
        · exact ⟨q, hq, hid⟩
    · intro p hp e2 he2
      rcases insertAppend_cases _ _ _ p hp with h | ⟨hk, h⟩
      · exact List.mem_cons_of_mem _ (hInv.bidsComplete p h e2 he2)
      · rcases h with ⟨q, hq, h⟩ | h
        · rw [h] at he2
          rcases List.mem_append.mp he2 with he2 | he2
          · rw [hk]
            exact List.mem_cons_of_mem _
              (hInv.bidsComplete (PriceLevel.fromDecimal e.price, q) hq e2 he2)
          · rw [List.mem_singleton.mp he2, hk]
            exact List.mem_cons_self _ _
        · rw [h] at he2
          rw [List.mem_singleton.mp he2, hk]
          exact List.mem_cons_self _ _
    · intro p hp e2 he2
      exact List.mem_cons_of_mem _ (hInv.asksComplete p hp e2 he2)
  case Sell =>
    have hb1 : b.addOrder e =
        { bids := b.bids
          asks := mapInsertAppend b.asks (PriceLevel.fromDecimal e.price) e
          order_index := (e.id, (Side.Sell, PriceLevel.fromDecimal e.price)) :: b.order_index } := by
      simp only [Orderbook.addOrder, hside, indexInsert, hfilter]
    rw [hb1]
    constructor
    · exact hInv.bidsSorted
    · exact insertAppend_sorted _ e _ hInv.asksSorted
    · exact hInv.bidsNE
    · intro p hp
      rcases insertAppend_cases _ _ _ p hp with h | ⟨_, h⟩
      · exact hInv.asksNE p h
      · rcases h with ⟨q, _, h⟩ | h <;> simp [h]
    · intro p hp e2 he2
      exact hInv.bidsKey p hp e2 he2
    · intro p hp e2 he2
      rcases insertAppend_cases _ _ _ p hp with h | ⟨hk, h⟩
      · exact hInv.asksKey p h e2 he2
      · rcases h with ⟨q, hq, h⟩ | h
        · rw [h] at he2
          rcases List.mem_append.mp he2 with he2 | he2
          · rw [hk]
            exact hInv.asksKey (PriceLevel.fromDecimal e.price, q) hq e2 he2
          · rw [List.mem_singleton.mp he2, hk]
        · rw [h] at he2
          rw [List.mem_singleton.mp he2, hk]
    · show (sideIds b.bids ++
        sideIds (mapInsertAppend b.asks (PriceLevel.fromDecimal e.price) e)).Nodup
      refine (List.Perm.nodup_iff ?_).mpr hnodup_new
      refine (List.Perm.append_left _ (insertAppend_sideIds _ e _)).trans ?_
      show List.Perm _ ((sideIds b.bids ++ sideIds b.asks) ++ [e.id])
      rw [List.append_assoc]
    · dsimp only
      simp only [List.map_cons, List.nodup_cons]
      constructor
      · intro hc
        rcases List.mem_map.mp hc with ⟨x, hx, hid⟩
        exact hidx_id x hx hid
      · exact hInv.idxKeysNodup
    · dsimp only
      intro x hx
      rcases List.mem_cons.mp hx with hx | hx
      · rw [hx]
        refine ⟨(mapGet b.asks (PriceLevel.fromDecimal e.price)).getD [] ++ [e], ?_, by simp⟩
        exact insertAppend_get_self _ e _ hInv.asksSorted
      · rcases hInv.idxSound x hx with ⟨q, hq, hid⟩
        rcases x with ⟨id, s, key⟩
        rcases s with _ | _
        · exact ⟨q, hq, hid⟩
        · simp only [Orderbook.sideMap] at hq ⊢
          by_cases hkey : key = PriceLevel.fromDecimal e.price
          · rw [hkey] at hq ⊢
            refine ⟨(mapGet b.asks (PriceLevel.fromDecimal e.price)).getD [] ++ [e],
              insertAppend_get_self _ e _ hInv.asksSorted, ?_⟩
            rw [hq]
            simp only [Option.getD_some, List.map_append]
            exact List.mem_append_left _ hid
          · rw [insertAppend_get_other _ e _ key hkey]
            exact ⟨q, hq, hid⟩
    · intro p hp e2 he2
      exact List.mem_cons_of_mem _ (hInv.bidsComplete p hp e2 he2)
    · intro p hp e2 he2
      rcases insertAppend_cases _ _ _ p hp with h | ⟨hk, h⟩
      · exact List.mem_cons_of_mem _ (hInv.asksComplete p h e2 he2)
      · rcases h with ⟨q, hq, h⟩ | h
        · rw [h] at he2
          rcases List.mem_append.mp he2 with he2 | he2
          · rw [hk]
            exact List.mem_cons_of_mem _
              (hInv.asksComplete (PriceLevel.fromDecimal e.price, q) hq e2 he2)
          · rw [List.mem_singleton.mp he2, hk]
            exact List.mem_cons_self _ _
        · rw [h] at he2
          rw [List.mem_singleton.mp he2, hk]
          exact List.mem_cons_self _ _

/-! ## removeById, mapSet, mapErase lemmas -/

theorem removeById_not_found (id : Uuid) :
    ∀ (q : List OrderEntry), id ∉ q.map (·.id) → removeById q id = (none, q) := by
  intro q
  induction q with
  | nil => intro _; rfl
  | cons e rest ih =>
    intro h
    simp only [List.map_cons, List.mem_cons] at h
    push_neg at h
    simp only [removeById, if_neg (fun hc : e.id = id => h.1 hc.symm)]
    rw [ih h.2]

theorem removeById_found (id : Uuid) :
    ∀ (q : List OrderEntry), id ∈ q.map (·.id) →
    ∃ e pre post, q = pre ++ e :: post ∧ e.id = id ∧ (∀ x ∈ pre, x.id ≠ id) ∧
      removeById q id = (some e, pre ++ post) := by
  intro q
  induction q with
  | nil => intro h; simp at h
  | cons e0 rest ih =>
    intro h
    by_cases he0 : e0.id = id
    · refine ⟨e0, [], rest, by simp, he0, by simp, ?_⟩
      simp [removeById, if_pos he0]
    · have hrest : id ∈ rest.map (·.id) := by
        simp only [List.map_cons, List.mem_cons] at h
        rcases h with hc | hc
        · exact absurd hc.symm he0
        · exact hc
      rcases ih hrest with ⟨e, pre, post, hq, hid, hpre, hrem⟩
      refine ⟨e, e0 :: pre, post, by rw [hq]; simp, hid, ?_, ?_⟩
      · intro x hx
        rcases List.mem_cons.mp hx with hx | hx
        · rw [hx]; exact he0
        · exact hpre x hx
      · simp only [removeById, if_neg he0, hrem, List.cons_append]

theorem mapGet_split (m : BookSide) (k : PriceLevel) (q : List OrderEntry)
    (hget : mapGet m k = some q) :
    ∃ m1 m2, m = m1 ++ (k, q) :: m2 ∧ k ∉ m1.map Prod.fst := by
  induction m with
  | nil => simp [mapGet] at hget
  | cons hd rest ih =>
    rcases hd with ⟨k0, q0⟩
    rw [mapGet_cons] at hget
    by_cases hk : k0 = k
    · rw [if_pos hk] at hget
      injection hget with h
      exact ⟨[], rest, by rw [hk, h]; rfl, by simp⟩
    · rw [if_neg hk] at hget
      rcases ih hget with ⟨m1, m2, heq, hnk⟩
      refine ⟨(k0, q0) :: m1, m2, by rw [heq]; simp, ?_⟩
      simp only [List.map_cons, List.mem_cons]
      push_neg
      exact ⟨fun hc => hk hc.symm, hnk⟩

theorem mapSet_split (m1 m2 : BookSide) (k : PriceLevel)
    (q q' : List OrderEntry) (h1 : k ∉ m1.map Prod.fst) (h2 : k ∉ m2.map Prod.fst) :
    mapSet (m1 ++ (k, q) :: m2) k q' = m1 ++ (k, q') :: m2 := by
  have hm : ∀ (m : BookSide), k ∉ m.map Prod.fst →
      m.map (fun p => if p.1 = k then (k, q') else p) = m := by
    intro m hm
    have hcongr : m.map (fun p => if p.1 = k then (k, q') else p) = m.map id := by
      apply List.map_congr_left
      intro p hp
      simp only [id_eq]
      rw [if_neg (fun hc => hm (List.mem_map.mpr ⟨p, hp, hc⟩))]
    rw [hcongr, List.map_id]
  simp only [mapSet, List.map_append, List.map_cons]
  rw [hm m1 h1, hm m2 h2]
  simp

theorem mapErase_split (m1 m2 : BookSide) (k : PriceLevel) (q : List OrderEntry)
    (h1 : k ∉ m1.map Prod.fst) (h2 : k ∉ m2.map Prod.fst) :
    mapErase (m1 ++ (k, q) :: m2) k = m1 ++ m2 := by
  have hm : ∀ (m : BookSide), k ∉ m.map Prod.fst →
      m.filter (fun p => p.1 ≠ k) = m := by
    intro m hm
    apply List.filter_eq_self.mpr
    intro p hp
    simpa using fun hc => hm (List.mem_map.mpr ⟨p, hp, hc⟩)
  simp only [mapErase, List.filter_append, List.filter_cons]
  have hd : (decide ((k, q).1 ≠ k)) = false := by simp
  rw [hd]
  rw [hm m1 h1, hm m2 h2]
  simp

theorem indexLookup_mem {idx : List (Uuid × Side × PriceLevel)} {id : Uuid}
    {v : Side × PriceLevel} (h : indexLookup idx id = some v) : (id, v) ∈ idx := by
  rcases Option.map_eq_some'.mp h with ⟨x, hx, hv⟩
  have hmem := List.mem_of_find?_eq_some hx
  have hkey : x.1 = id := by simpa using List.find?_some hx
  have : x = (id, v) := by
    rcases x with ⟨a, b⟩
    simp only at hkey hv
    rw [hkey, hv]
  exact this ▸ hmem

theorem indexLookup_eq_none {idx : List (Uuid × Side × PriceLevel)} {id : Uuid}
    (h : ∀ x ∈ idx, x.1 ≠ id) : indexLookup idx id = none := by
  rw [indexLookup, List.find?_eq_none.mpr, Option.map_none']
  intro x hx
  simpa using h x hx

theorem indexLookup_erase (idx : List (Uuid × Side × PriceLevel)) (id : Uuid) :
    indexLookup (indexErase idx id) id = none := by
  apply indexLookup_eq_none
  intro x hx
  have := List.of_mem_filter hx
  simpa using this

theorem mem_indexErase {idx : List (Uuid × Side × PriceLevel)}
    {id : Uuid} {x : Uuid × Side × PriceLevel} :
    x ∈ indexErase idx id ↔ x ∈ idx ∧ x.1 ≠ id := by
  simp [indexErase, List.mem_filter]

theorem mapGet_append_cons (m1 : BookSide) (k : PriceLevel) (q' : List OrderEntry)
    (m2 : BookSide) (h : k ∉ m1.map Prod.fst) :
    mapGet (m1 ++ (k, q') :: m2) k = some q' := by
  induction m1 with
  | nil => rw [List.nil_append, mapGet_cons, if_pos rfl]
  | cons hd rest ih =>
    rcases hd with ⟨k0, q0⟩
    simp only [List.map_cons, List.mem_cons] at h
    push_neg at h
    rw [List.cons_append, mapGet_cons, if_neg (Ne.symm h.1)]
    exact ih h.2

theorem mapGet_append_cons_other (k : PriceLevel) (q q' : List OrderEntry)
    (m2 : BookSide) (k2 : PriceLevel) (hne : k2 ≠ k) :
    ∀ (m1 : BookSide),
    mapGet (m1 ++ (k, q') :: m2) k2 = mapGet (m1 ++ (k, q) :: m2) k2 := by
  intro m1
  induction m1 with
  | nil =>
    rw [List.nil_append, List.nil_append, mapGet_cons, mapGet_cons,
      if_neg (Ne.symm hne), if_neg (Ne.symm hne)]
  | cons hd rest ih =>
    rcases hd with ⟨k0, q0⟩
    rw [List.cons_append, List.cons_append, mapGet_cons, mapGet_cons]
    by_cases h0 : k0 = k2
    · rw [if_pos h0, if_pos h0]
    · rw [if_neg h0, if_neg h0]
      exact ih

theorem mapGet_append_drop (k : PriceLevel) (q : List OrderEntry)
    (m2 : BookSide) (k2 : PriceLevel) (hne : k2 ≠ k) :
    ∀ (m1 : BookSide),
    mapGet (m1 ++ m2) k2 = mapGet (m1 ++ (k, q) :: m2) k2 := by
  intro m1
  induction m1 with
  | nil =>
    rw [List.nil_append, List.nil_append, mapGet_cons, if_neg (Ne.symm hne)]
  | cons hd rest ih =>
    rcases hd with ⟨k0, q0⟩
    rw [List.cons_append, List.cons_append, mapGet_cons, mapGet_cons]
    by_cases h0 : k0 = k2
    · rw [if_pos h0, if_pos h0]
    · rw [if_neg h0, if_neg h0]
      exact ih

theorem cancelFromSide_struct {m : BookSide} {k : PriceLevel} {id : Uuid}
    {q : List OrderEntry}
    (hkeys : (m.map Prod.fst).Nodup) (hsnd : (sideIds m).Nodup)
    (hget : mapGet m k = some q) (hid : id ∈ q.map (·.id)) :
    ∃ e, (cancelFromSide m k id).1 = some e ∧ e ∈ q ∧ e.id = id ∧
      (((cancelFromSide m k id).2.map Prod.fst).Sublist (m.map Prod.fst)) ∧
      (∀ p ∈ (cancelFromSide m k id).2,
        p ∈ m ∨ (p.1 = k ∧ (k, q) ∈ m ∧ p.2 ≠ [] ∧ ∀ x ∈ p.2, x ∈ q)) ∧
      ((sideIds (cancelFromSide m k id).2).Sublist (sideIds m)) ∧
      (id ∉ sideIds (cancelFromSide m k id).2) ∧
      (∀ k2, k2 ≠ k → mapGet (cancelFromSide m k id).2 k2 = mapGet m k2) ∧
      (∀ id2 ∈ q.map (·.id), id2 ≠ id →
        ∃ q2, mapGet (cancelFromSide m k id).2 k = some q2 ∧ id2 ∈ q2.map (·.id)) := by
  rcases removeById_found id q hid with ⟨e, pre, post, hq, hide, hpre, hrem⟩
  rcases mapGet_split m k q hget with ⟨m1, m2, hm, hk1⟩
  have hk2 : k ∉ m2.map Prod.fst := by
    intro hc
    rw [hm] at hkeys
    simp only [List.map_append, List.map_cons] at hkeys
    rcases List.nodup_append.mp hkeys with ⟨_, hnd2, _⟩
    exact (List.nodup_cons.mp hnd2).1 hc
  have hkm : (k, q) ∈ m := by rw [hm]; simp
  have hres1 : (cancelFromSide m k id).1 = some e := by
    simp only [cancelFromSide, hget, hrem]
  have hres2 : (cancelFromSide m k id).2 =
      if (pre ++ post).isEmpty then m1 ++ m2 else m1 ++ (k, pre ++ post) :: m2 := by
    simp only [cancelFromSide, hget, hrem]
    by_cases hemp : (pre ++ post).isEmpty
    · rw [if_pos hemp, if_pos hemp, hm, mapErase_split m1 m2 k q hk1 hk2]
    · rw [if_neg hemp, if_neg hemp, hm, mapSet_split m1 m2 k q _ hk1 hk2]
  have hqids : q.map (·.id) = pre.map (·.id) ++ id :: post.map (·.id) := by
    rw [hq]
    simp [hide]
  have hqnd : (q.map (·.id)).Nodup := by
    have hdecomp : sideIds m = sideIds m1 ++ (q.map (·.id) ++ sideIds m2) := by
      rw [hm, sideIds_append, sideIds_cons]
    rw [hdecomp] at hsnd
    exact (List.nodup_append.mp (List.nodup_append.mp hsnd).2.1).1
  have hppids : (pre ++ post).map (·.id) = pre.map (·.id) ++ post.map (·.id) := by simp
  have hid_not_pp : id ∉ (pre ++ post).map (·.id) := by
    rw [hppids]
    rw [hqids] at hqnd
    rcases List.nodup_append.mp hqnd with ⟨_, hnd2, hdisj⟩
    intro hc
    rcases List.mem_append.mp hc with hc | hc
    · exact hdisj hc (List.mem_cons_self _ _)
    · exact (List.nodup_cons.mp hnd2).1 hc
  have hsub_pp : ((pre ++ post).map (·.id)).Sublist (q.map (·.id)) := by
    rw [hppids, hqids]
    exact List.Sublist.append_left (List.sublist_cons_self _ _) _
  refine ⟨e, hres1, by rw [hq]; simp, hide, ?_, ?_, ?_, ?_, ?_, ?_⟩
  · -- keys sublist
    rw [hres2, hm]
    by_cases hemp : (pre ++ post).isEmpty
    · rw [if_pos hemp]
      simp only [List.map_append, List.map_cons]
      exact List.Sublist.append_left (List.sublist_cons_self _ _) _
    · rw [if_neg hemp]
      simp
  · -- membership cases
    intro p hp
    rw [hres2] at hp
    by_cases hemp : (pre ++ post).isEmpty
    · rw [if_pos hemp] at hp
      left
      rw [hm]
      rcases List.mem_append.mp hp with hp | hp
      · exact List.mem_append_left _ hp
      · exact List.mem_append_right _ (List.mem_cons_of_mem _ hp)
    · rw [if_neg hemp] at hp
      rcases List.mem_append.mp hp with hp | hp
      · left
        rw [hm]
        exact List.mem_append_left _ hp
      · rcases List.mem_cons.mp hp with hp | hp
        · right
          refine ⟨by rw [hp], hkm, ?_, ?_⟩
          · rw [hp]
            simpa using (by simpa using hemp : ¬(pre ++ post) = [])
          · intro x hx
            rw [hp] at hx
            simp only at hx
            rw [hq]
            rcases List.mem_append.mp hx with hx | hx
            · exact List.mem_append_left _ hx
            · exact List.mem_append_right _ (List.mem_cons_of_mem _ hx)
        · left
          rw [hm]
          exact List.mem_append_right _ (List.mem_cons_of_mem _ hp)
  · -- sideIds sublist
    rw [hres2, hm]
    by_cases hemp : (pre ++ post).isEmpty
    · rw [if_pos hemp, sideIds_append, sideIds_append, sideIds_cons]
      exact List.Sublist.append_left (List.sublist_append_right _ _) _
    · rw [if_neg hemp, sideIds_append, sideIds_append, sideIds_cons, sideIds_cons]
      exact List.Sublist.append_left (List.Sublist.append hsub_pp (List.Sublist.refl _)) _
  · -- id removed
    have hsnd' := hsnd
    rw [hm, sideIds_append, sideIds_cons] at hsnd'
    rcases List.nodup_append.mp hsnd' with ⟨hnd1, hnd23, hdisj⟩
    have hidq : id ∈ q.map (·.id) ++ sideIds m2 := List.mem_append_left _ hid
    rw [hres2]
    by_cases hemp : (pre ++ post).isEmpty
    · rw [if_pos hemp, sideIds_append]
      intro hc
      rcases List.mem_append.mp hc with hc | hc
      · exact hdisj hc hidq
      · exact (List.nodup_append.mp hnd23).2.2 hid hc
    · rw [if_neg hemp, sideIds_append, sideIds_cons]
      intro hc
      rcases List.mem_append.mp hc with hc | hc
      · exact hdisj hc hidq
      · rcases List.mem_append.mp hc with hc | hc
        · exact hid_not_pp hc
        · exact (List.nodup_append.mp hnd23).2.2 hid hc
  · -- other keys unchanged
    intro k2 hne
    rw [hres2, hm]
    by_cases hemp : (pre ++ post).isEmpty
    · rw [if_pos hemp]
      exact mapGet_append_drop k q m2 k2 hne m1
    · rw [if_neg hemp]
      exact mapGet_append_cons_other k q (pre ++ post) m2 k2 hne m1
  · -- surviving ids at key k still resolve
    intro id2 hid2 hne2
    have hid2pp : id2 ∈ (pre ++ post).map (·.id) := by
      rw [hppids]
      rw [hqids] at hid2
      rcases List.mem_append.mp hid2 with hc | hc
      · exact List.mem_append_left _ hc
      · rcases List.mem_cons.mp hc with hc | hc
        · exact absurd hc hne2
        · exact List.mem_append_right _ hc
    have hemp : ¬(pre ++ post).isEmpty := by
      intro hc
      rw [List.isEmpty_iff.mp hc] at hid2pp
      simp at hid2pp
    rw [hres2, if_neg hemp]
    exact ⟨pre ++ post, mapGet_append_cons m1 k (pre ++ post) m2 hk1, hid2pp⟩

theorem keys_nodup_of_sorted {m : BookSide}
    (h : List.Chain' (· < ·) (m.map Prod.fst)) : (m.map Prod.fst).Nodup :=
  (List.chain'_iff_pairwise.mp h).imp ne_of_lt

theorem cancelOrder_lookup_none {b : Orderbook} {id : Uuid}
    (h : indexLookup b.order_index id = none) : b.cancelOrder id = (none, b) := by
  simp [Orderbook.cancelOrder, h]

theorem cancelOrder_index {b : Orderbook} {id : Uuid} {s : Side} {k : PriceLevel}
    (h : indexLookup b.order_index id = some (s, k)) :
    (b.cancelOrder id).2.order_index = indexErase b.order_index id := by
  simp only [Orderbook.cancelOrder, h]
  cases s <;> rfl

theorem cancelOrder_second_none (b : Orderbook) (id : Uuid) :
    ((b.cancelOrder id).2.cancelOrder id).1 = none := by
  rcases hl : indexLookup b.order_index id with _ | ⟨s, k⟩
  · rw [cancelOrder_lookup_none hl, cancelOrder_lookup_none hl]
  · have hidx := cancelOrder_index hl
    have : indexLookup (b.cancelOrder id).2.order_index id = none := by
      rw [hidx]
      exact indexLookup_erase _ _
    rw [cancelOrder_lookup_none this]

theorem BookInv_cancelOrder {b : Orderbook} (hInv : BookInv b) (id : Uuid) :
    BookInv (b.cancelOrder id).2 := by
  rcases hl : indexLookup b.order_index id with _ | ⟨s, k⟩
  · rw [cancelOrder_lookup_none hl]
    exact hInv
  · have hmem : (id, (s, k)) ∈ b.order_index := indexLookup_mem hl
    rcases hInv.idxSound _ hmem with ⟨q, hq, hid⟩
    have hbidsNodup : (sideIds b.bids).Nodup := (List.nodup_append.mp hInv.idsNodup).1
    have hasksNodup : (sideIds b.asks).Nodup := (List.nodup_append.mp hInv.idsNodup).2.1
    have hBAdisj := (List.nodup_append.mp hInv.idsNodup).2.2
    rcases s with _ | _
    case Buy =>
      simp only [Orderbook.sideMap] at hq hid
      rcases cancelFromSide_struct (keys_nodup_of_sorted hInv.bidsSorted)
        hbidsNodup hq hid with
        ⟨e, hres1, heq, heid, hkeys_sub, hcases, hids_sub, hid_out, hget_other, hget_self⟩
      have hb' : (b.cancelOrder id).2 =
          { bids := (cancelFromSide b.bids k id).2, asks := b.asks
            order_index := indexErase b.order_index id } := by
        simp only [Orderbook.cancelOrder, hl]
      rw [hb']
      constructor
      · exact List.Chain'.sublist hInv.bidsSorted hkeys_sub
      · exact hInv.asksSorted
      · intro p hp
        rcases hcases p hp with h | ⟨_, _, hne, _⟩
        · exact hInv.bidsNE p h
        · exact hne
      · exact hInv.asksNE
      · intro p hp e2 he2
        rcases hcases p hp with h | ⟨hk', hkq, _, hsub⟩
        · exact hInv.bidsKey p h e2 he2
        · rw [hk']
          exact hInv.bidsKey (k, q) hkq e2 (hsub e2 he2)
      · exact hInv.asksKey
      · show ((sideIds (cancelFromSide b.bids k id).2) ++ sideIds b.asks).Nodup
        exact hInv.idsNodup.sublist (List.Sublist.append hids_sub (List.Sublist.refl _))
      · exact hInv.idxKeysNodup.sublist (List.Sublist.map _ (List.filter_sublist _))
      · intro x hx
        rcases mem_indexErase.mp hx with ⟨hx, hxid⟩
        rcases hInv.idxSound x hx with ⟨q2, hq2, hid2⟩
        rcases x with ⟨id2, s2, k2⟩
        rcases s2 with _ | _
        · simp only [Orderbook.sideMap] at hq2 hid2 ⊢
          by_cases hk2 : k2 = k
          · rw [hk2] at hq2
            have hq2q : q2 = q := by
              rw [hq] at hq2
              exact (Option.some.injEq .. ▸ hq2).symm
            rw [hk2]
            exact hget_self id2 (hq2q ▸ hid2) hxid
          · rw [hget_other k2 hk2]
            exact ⟨q2, hq2, hid2⟩
        · exact ⟨q2, hq2, hid2⟩
      · intro p hp e2 he2
        have hne2 : e2.id ≠ id := by
          intro hc
          exact hid_out (List.mem_map.mpr ⟨e2, mem_allEntries hp he2, hc⟩)
        rcases hcases p hp with h | ⟨hk', hkq, _, hsub⟩
        · exact mem_indexErase.mpr ⟨hInv.bidsComplete p h e2 he2, hne2⟩
        · rw [hk']
          exact mem_indexErase.mpr ⟨hInv.bidsComplete (k, q) hkq e2 (hsub e2 he2), hne2⟩
      · intro p hp e2 he2
        have hne2 : e2.id ≠ id := by
          intro hc
          exact @hBAdisj id
            (List.mem_map.mpr ⟨e, mem_allEntries (mapGet_some_key hq).1 heq, heid⟩)
            (List.mem_map.mpr ⟨e2, mem_allEntries hp he2, hc⟩)
        exact mem_indexErase.mpr ⟨hInv.asksComplete p hp e2 he2, hne2⟩
    case Sell =>
      simp only [Orderbook.sideMap] at hq hid
      rcases cancelFromSide_struct (keys_nodup_of_sorted hInv.asksSorted)
        hasksNodup hq hid with
        ⟨e, hres1, heq, heid, hkeys_sub, hcases, hids_sub, hid_out, hget_other, hget_self⟩
      have hb' : (b.cancelOrder id).2 =
          { bids := b.bids, asks := (cancelFromSide b.asks k id).2
            order_index := indexErase b.order_index id } := by
        simp only [Orderbook.cancelOrder, hl]
      rw [hb']
      constructor
      · exact hInv.bidsSorted
      · exact List.Chain'.sublist hInv.asksSorted hkeys_sub
      · exact hInv.bidsNE
      · intro p hp
        rcases hcases p hp with h | ⟨_, _, hne, _⟩
        · exact hInv.asksNE p h
        · exact hne
      · exact hInv.bidsKey
      · intro p hp e2 he2
        rcases hcases p hp with h | ⟨hk', hkq, _, hsub⟩
        · exact hInv.asksKey p h e2 he2
        · rw [hk']
          exact hInv.asksKey (k, q) hkq e2 (hsub e2 he2)
      · show (sideIds b.bids ++ sideIds (cancelFromSide b.asks k id).2).Nodup
        exact hInv.idsNodup.sublist (List.Sublist.append (List.Sublist.refl _) hids_sub)
      · exact hInv.idxKeysNodup.sublist (List.Sublist.map _ (List.filter_sublist _))
      · intro x hx
        rcases mem_indexErase.mp hx with ⟨hx, hxid⟩
        rcases hInv.idxSound x hx with ⟨q2, hq2, hid2⟩
        rcases x with ⟨id2, s2, k2⟩
        rcases s2 with _ | _
        · exact ⟨q2, hq2, hid2⟩
        · simp only [Orderbook.sideMap] at hq2 hid2 ⊢
          by_cases hk2 : k2 = k
          · rw [hk2] at hq2
            have hq2q : q2 = q := by
              rw [hq] at hq2
              exact (Option.some.injEq .. ▸ hq2).symm
            rw [hk2]
            exact hget_self id2 (hq2q ▸ hid2) hxid
          · rw [hget_other k2 hk2]
            exact ⟨q2, hq2, hid2⟩
      · intro p hp e2 he2
        have hne2 : e2.id ≠ id := by
          intro hc
          exact @hBAdisj id
            (List.mem_map.mpr ⟨e2, mem_allEntries hp he2, hc⟩)
            (List.mem_map.mpr ⟨e, mem_allEntries (mapGet_some_key hq).1 heq, heid⟩)
        exact mem_indexErase.mpr ⟨hInv.bidsComplete p hp e2 he2, hne2⟩
      · intro p hp e2 he2
        have hne2 : e2.id ≠ id := by
          intro hc
          exact hid_out (List.mem_map.mpr ⟨e2, mem_allEntries hp he2, hc⟩)
        rcases hcases p hp with h | ⟨hk', hkq, _, hsub⟩
        · exact mem_indexErase.mpr ⟨hInv.asksComplete p h e2 he2, hne2⟩
        · rw [hk']
          exact mem_indexErase.mpr ⟨hInv.asksComplete (k, q) hkq e2 (hsub e2 he2), hne2⟩

theorem cancelOrder_found {b : Orderbook} (hInv : BookInv b) {id : Uuid}
    {s : Side} {k : PriceLevel}
    (hl : indexLookup b.order_index id = some (s, k)) :
    ∃ e, (b.cancelOrder id).1 = some e ∧ e.id = id ∧ id ∈ bookIds b ∧
      id ∉ bookIds (b.cancelOrder id).2 := by
  have hmem : (id, (s, k)) ∈ b.order_index := indexLookup_mem hl
  rcases hInv.idxSound _ hmem with ⟨q, hq, hid⟩
  have hbidsNodup : (sideIds b.bids).Nodup := (List.nodup_append.mp hInv.idsNodup).1
  have hasksNodup : (sideIds b.asks).Nodup := (List.nodup_append.mp hInv.idsNodup).2.1
  have hBAdisj := (List.nodup_append.mp hInv.idsNodup).2.2
  rcases s with _ | _
  case Buy =>
    simp only [Orderbook.sideMap] at hq hid
    rcases cancelFromSide_struct (keys_nodup_of_sorted hInv.bidsSorted)
      hbidsNodup hq hid with
      ⟨e, hres1, heq, heid, _, _, _, hid_out, _, _⟩
    have hinb : id ∈ bookIds b :=
      List.mem_append_left _
        (List.mem_map.mpr ⟨e, mem_allEntries (mapGet_some_key hq).1 heq, heid⟩)
    have hb' : (b.cancelOrder id).2 =
        { bids := (cancelFromSide b.bids k id).2, asks := b.asks
          order_index := indexErase b.order_index id } := by
      simp only [Orderbook.cancelOrder, hl]
    have hres1' : (b.cancelOrder id).1 = some e := by
      simp only [Orderbook.cancelOrder, hl]
      exact hres1
    refine ⟨e, hres1', heid, hinb, ?_⟩
    rw [hb']
    intro hc
    rcases List.mem_append.mp hc with hc | hc
    · exact hid_out hc
    · exact @hBAdisj id
        (List.mem_map.mpr ⟨e, mem_allEntries (mapGet_some_key hq).1 heq, heid⟩) hc
  case Sell =>
    simp only [Orderbook.sideMap] at hq hid
    rcases cancelFromSide_struct (keys_nodup_of_sorted hInv.asksSorted)
      hasksNodup hq hid with
      ⟨e, hres1, heq, heid, _, _, _, hid_out, _, _⟩
    have hinb : id ∈ bookIds b :=
      List.mem_append_right _
        (List.mem_map.mpr ⟨e, mem_allEntries (mapGet_some_key hq).1 heq, heid⟩)
    have hb' : (b.cancelOrder id).2 =
        { bids := b.bids, asks := (cancelFromSide b.asks k id).2
          order_index := indexErase b.order_index id } := by
      simp only [Orderbook.cancelOrder, hl]
    have hres1' : (b.cancelOrder id).1 = some e := by
      simp only [Orderbook.cancelOrder, hl]
      exact hres1
    refine ⟨e, hres1', heid, hinb, ?_⟩
    rw [hb']
    intro hc
    rcases List.mem_append.mp hc with hc | hc
    · exact @hBAdisj id hc
        (List.mem_map.mpr ⟨e, mem_allEntries (mapGet_some_key hq).1 heq, heid⟩)
    · exact hid_out hc

theorem cancelOrder_none_iff {b : Orderbook} (hInv : BookInv b) (id : Uuid) :
    (b.cancelOrder id).1 = none ↔ indexLookup b.order_index id = none := by
  constructor
  · intro h
    rcases hl : indexLookup b.order_index id with _ | ⟨s, k⟩
    · rfl
    · rcases cancelOrder_found hInv hl with ⟨e, he, _⟩
      rw [h] at he
      exact Option.noConfusion he
  · intro h
    rw [cancelOrder_lookup_none h]

/-! ## match_order invariant preservation -/

theorem BookInv_matchOrder {b : Orderbook} (hInv : BookInv b) (tid : Uuid)
    (side : Side) (amount : ℚ) (limit : Option ℚ) (fc : FeeConfig) :
    BookInv (b.matchOrder tid side amount limit fc).2 := by
  have hbidsNodup : (sideIds b.bids).Nodup := (List.nodup_append.mp hInv.idsNodup).1
  have hasksNodup : (sideIds b.asks).Nodup := (List.nodup_append.mp hInv.idsNodup).2.1
  have hBAdisj := (List.nodup_append.mp hInv.idsNodup).2.2
  rcases side with _ | _
  case Buy =>
    have hb' : (b.matchOrder tid Side.Buy amount limit fc).2 =
        { bids := b.bids
          asks := (fillLevels tid fc (buyStop limit) amount b.asks).2.2.1
          order_index := (fillLevels tid fc (buyStop limit) amount b.asks).2.2.2.foldl
            indexErase b.order_index } := by
      simp only [Orderbook.matchOrder]
    have hperm := fillLevels_ids_perm tid fc (buyStop limit) b.asks amount
    have hrmnd : ((fillLevels tid fc (buyStop limit) amount b.asks).2.2.2 ++
        sideIds (fillLevels tid fc (buyStop limit) amount b.asks).2.2.1).Nodup :=
      hperm.nodup_iff.mp hasksNodup
    have hasks'Nodup : (sideIds (fillLevels tid fc (buyStop limit) amount b.asks).2.2.1).Nodup :=
      (List.nodup_append.mp hrmnd).2.1
    have hrm_disj := (List.nodup_append.mp hrmnd).2.2
    have hasks'sub : ∀ a ∈ sideIds (fillLevels tid fc (buyStop limit) amount b.asks).2.2.1,
        a ∈ sideIds b.asks := by
      intro a ha
      exact hperm.mem_iff.mpr (List.mem_append_right _ ha)
    have hkeys' : ((fillLevels tid fc (buyStop limit) amount b.asks).2.2.1.map Prod.fst).Nodup :=
      (keys_nodup_of_sorted hInv.asksSorted).sublist
        (fillLevels_keys_sublist tid fc (buyStop limit) b.asks amount)
    rw [hb']
    constructor
    · exact hInv.bidsSorted
    · exact List.Chain'.sublist hInv.asksSorted
        (fillLevels_keys_sublist tid fc (buyStop limit) b.asks amount)
    · exact hInv.bidsNE
    · exact fillLevels_noEmpty tid fc (buyStop limit) b.asks amount hInv.asksNE
    · exact hInv.bidsKey
    · intro p hp e2 he2
      rcases fillLevels_entry_src tid fc (buyStop limit) b.asks amount p hp with ⟨q, hq, hrel⟩
      rcases hrel e2 he2 with ⟨e, he, _, hprice, _⟩
      rw [hprice]
      exact hInv.asksKey (p.1, q) hq e he
    · show (sideIds b.bids ++
        sideIds (fillLevels tid fc (buyStop limit) amount b.asks).2.2.1).Nodup
      refine List.nodup_append.mpr ⟨hbidsNodup, hasks'Nodup, ?_⟩
      intro a ha hc
      exact hBAdisj ha (hasks'sub a hc)
    · exact hInv.idxKeysNodup.sublist (List.Sublist.map _ (foldl_indexErase_sublist _ _))
    · intro x hx
      rcases (mem_foldl_indexErase _ _ _).mp hx with ⟨hx, hxrm⟩
      rcases hInv.idxSound x hx with ⟨q2, hq2, hid2⟩
      rcases x with ⟨id2, s2, k2⟩
      rcases s2 with _ | _
      · exact ⟨q2, hq2, hid2⟩
      · simp only [Orderbook.sideMap] at hq2 hid2 ⊢
        exact fillLevels_get_fwd tid fc (buyStop limit) b.asks amount k2 q2 hq2 id2 hid2 hxrm
    · intro p hp e2 he2
      refine (mem_foldl_indexErase _ _ _).mpr ⟨hInv.bidsComplete p hp e2 he2, ?_⟩
      intro hc
      exact hBAdisj (List.mem_map.mpr ⟨e2, mem_allEntries hp he2, rfl⟩)
        (fillLevels_rm_sub tid fc (buyStop limit) b.asks amount e2.id hc)
    · intro p hp e2 he2
      have hget' : mapGet (fillLevels tid fc (buyStop limit) amount b.asks).2.2.1 p.1 =
          some p.2 := mapGet_mem hkeys' (by rw [Prod.mk.eta]; exact hp)
      rcases fillLevels_get_back tid fc (buyStop limit) b.asks amount
        (keys_nodup_of_sorted hInv.asksSorted) p.1 p.2 hget' with ⟨q0, hq0, hsub⟩
      have he2q0 : e2.id ∈ q0.map (·.id) :=
        hsub e2.id (List.mem_map.mpr ⟨e2, he2, rfl⟩)
      rcases List.mem_map.mp he2q0 with ⟨e0, he0, hid0⟩
      have hc0 := hInv.asksComplete (p.1, q0) (mapGet_some_key hq0).1 e0 he0
      refine (mem_foldl_indexErase _ _ _).mpr ⟨by rw [← hid0]; exact hc0, ?_⟩
      intro hc
      exact hrm_disj hc (List.mem_map.mpr ⟨e2, mem_allEntries hp he2, rfl⟩)
  case Sell =>
    have hb' : (b.matchOrder tid Side.Sell amount limit fc).2 =
        { bids := (fillLevels tid fc (sellStop limit) amount b.bids.reverse).2.2.1.reverse
          asks := b.asks
          order_index := (fillLevels tid fc (sellStop limit) amount b.bids.reverse).2.2.2.foldl
            indexErase b.order_index } := by
      simp only [Orderbook.matchOrder]
    have hrevNodup : (sideIds b.bids.reverse).Nodup :=
      (sideIds_reverse b.bids).nodup_iff.mpr hbidsNodup
    have hrevKeys : (b.bids.reverse.map Prod.fst).Nodup := by
      rw [List.map_reverse]
      exact List.nodup_reverse.mpr (keys_nodup_of_sorted hInv.bidsSorted)
    have hperm := fillLevels_ids_perm tid fc (sellStop limit) b.bids.reverse amount
    have hrmnd : ((fillLevels tid fc (sellStop limit) amount b.bids.reverse).2.2.2 ++
        sideIds (fillLevels tid fc (sellStop limit) amount b.bids.reverse).2.2.1).Nodup :=
      hperm.nodup_iff.mp hrevNodup
    have hL'Nodup : (sideIds (fillLevels tid fc (sellStop limit) amount b.bids.reverse).2.2.1).Nodup :=
      (List.nodup_append.mp hrmnd).2.1
    have hrm_disj := (List.nodup_append.mp hrmnd).2.2
    have hbids'perm : List.Perm
        (sideIds (fillLevels tid fc (sellStop limit) amount b.bids.reverse).2.2.1.reverse)
        (sideIds (fillLevels tid fc (sellStop limit) amount b.bids.reverse).2.2.1) :=
      sideIds_reverse _
    have hL'sub : ∀ a ∈ sideIds (fillLevels tid fc (sellStop limit) amount b.bids.reverse).2.2.1,
        a ∈ sideIds b.bids := by
      intro a ha
      exact (sideIds_reverse b.bids).mem_iff.mp (hperm.mem_iff.mpr (List.mem_append_right _ ha))
    have hkeysL' : ((fillLevels tid fc (sellStop limit) amount b.bids.reverse).2.2.1.map
        Prod.fst).Nodup :=
      hrevKeys.sublist (fillLevels_keys_sublist tid fc (sellStop limit) b.bids.reverse amount)
    have hkeys_rev : ((fillLevels tid fc (sellStop limit) amount
        b.bids.reverse).2.2.1.reverse.map Prod.fst).Nodup := by
      rw [List.map_reverse]
      exact List.nodup_reverse.mpr hkeysL'
    have hgetL' : ∀ k, mapGet (fillLevels tid fc (sellStop limit) amount
        b.bids.reverse).2.2.1.reverse k =
        mapGet (fillLevels tid fc (sellStop limit) amount b.bids.reverse).2.2.1 k :=
      fun k => mapGet_reverse hkeysL' k
    have hgetRev : ∀ k, mapGet b.bids.reverse k = mapGet b.bids k :=
      fun k => mapGet_reverse (keys_nodup_of_sorted hInv.bidsSorted) k
    rw [hb']
    constructor
    · show List.Chain' (· < ·) ((fillLevels tid fc (sellStop limit) amount
        b.bids.reverse).2.2.1.reverse.map Prod.fst)
      rw [List.map_reverse]
      have hsub2 : (((fillLevels tid fc (sellStop limit) amount
          b.bids.reverse).2.2.1.map Prod.fst).reverse).Sublist (b.bids.map Prod.fst) := by
        have h1 := fillLevels_keys_sublist tid fc (sellStop limit) b.bids.reverse amount
        rw [List.map_reverse] at h1
        have h2 := List.reverse_sublist.mpr h1
        rwa [List.reverse_reverse] at h2
      exact List.Chain'.sublist hInv.bidsSorted hsub2
    · exact hInv.asksSorted
    · intro p hp
      rw [List.mem_reverse] at hp
      exact fillLevels_noEmpty tid fc (sellStop limit) b.bids.reverse amount
        (fun p hp => hInv.bidsNE p (List.mem_reverse.mp hp)) p hp
    · exact hInv.asksNE
    · intro p hp e2 he2
      rw [List.mem_reverse] at hp
      rcases fillLevels_entry_src tid fc (sellStop limit) b.bids.reverse amount p hp with
        ⟨q, hq, hrel⟩
      rcases hrel e2 he2 with ⟨e, he, _, hprice, _⟩
      rw [hprice]
      exact hInv.bidsKey (p.1, q) (List.mem_reverse.mp hq) e he
    · exact hInv.asksKey
    · show (sideIds (fillLevels tid fc (sellStop limit) amount
        b.bids.reverse).2.2.1.reverse ++ sideIds b.asks).Nodup
      refine List.nodup_append.mpr ⟨hbids'perm.nodup_iff.mpr hL'Nodup, hasksNodup, ?_⟩
      intro a ha hc
      exact hBAdisj (hL'sub a (hbids'perm.mem_iff.mp ha)) hc
    · exact hInv.idxKeysNodup.sublist (List.Sublist.map _ (foldl_indexErase_sublist _ _))
    · intro x hx
      rcases (mem_foldl_indexErase _ _ _).mp hx with ⟨hx, hxrm⟩
      rcases hInv.idxSound x hx with ⟨q2, hq2, hid2⟩
      rcases x with ⟨id2, s2, k2⟩
      rcases s2 with _ | _
      · simp only [Orderbook.sideMap] at hq2 hid2 ⊢
        rw [hgetL' k2]
        exact fillLevels_get_fwd tid fc (sellStop limit) b.bids.reverse amount k2 q2
          (by rw [hgetRev k2]; exact hq2) id2 hid2 hxrm
      · exact ⟨q2, hq2, hid2⟩
    · intro p hp e2 he2
      rw [List.mem_reverse] at hp
      have hget' : mapGet (fillLevels tid fc (sellStop limit) amount
          b.bids.reverse).2.2.1 p.1 = some p.2 :=
        mapGet_mem hkeysL' (by rw [Prod.mk.eta]; exact hp)
      rcases fillLevels_get_back tid fc (sellStop limit) b.bids.reverse amount
        hrevKeys p.1 p.2 hget' with ⟨q0, hq0, hsub⟩
      rw [hgetRev p.1] at hq0
      have he2q0 : e2.id ∈ q0.map (·.id) :=
        hsub e2.id (List.mem_map.mpr ⟨e2, he2, rfl⟩)
      rcases List.mem_map.mp he2q0 with ⟨e0, he0, hid0⟩
      have hc0 := hInv.bidsComplete (p.1, q0) (mapGet_some_key hq0).1 e0 he0
      refine (mem_foldl_indexErase _ _ _).mpr ⟨by rw [← hid0]; exact hc0, ?_⟩
      intro hc
      exact hrm_disj hc (List.mem_map.mpr ⟨e2, mem_allEntries hp he2, rfl⟩)
    · intro p hp e2 he2
      refine (mem_foldl_indexErase _ _ _).mpr ⟨hInv.asksComplete p hp e2 he2, ?_⟩
      intro hc
      have hrm_in : e2.id ∈ sideIds b.bids :=
        (sideIds_reverse b.bids).mem_iff.mp
          (fillLevels_rm_sub tid fc (sellStop limit) b.bids.reverse amount e2.id hc)
      exact hBAdisj hrm_in (List.mem_map.mpr ⟨e2, mem_allEntries hp he2, rfl⟩)

instance decExOptionSome {α : Type} [DecidableEq α] (o : Option α) (P : α → Prop)
    [DecidablePred P] : Decidable (∃ q, o = some q ∧ P q) :=
  match o with
  | none => isFalse (by rintro ⟨q, hq, -⟩; exact Option.noConfusion hq)
  | some a => decidable_of_iff (P a)
      ⟨fun h => ⟨a, rfl, h⟩, by rintro ⟨q, hq, h⟩; rwa [Option.some.inj hq]⟩

theorem BookInv_new : BookInv Orderbook.new := by
  constructor <;> simp [Orderbook.new, bookIds, sideIds, allEntries]

theorem BookInv_reachable {b : Orderbook} (h : Reachable b) : BookInv b := by
  induction h with
  | empty => exact BookInv_new
  | add hr hfresh ih => exact BookInv_addOrder ih hfresh
  | cancel id hr ih => exact BookInv_cancelOrder ih id
  | matched tid side amount limit fc hr ih => exact BookInv_matchOrder ih tid side amount limit fc

theorem matchOrder_ids_sub (b : Orderbook) (tid : Uuid) (side : Side) (amount : ℚ)
    (limit : Option ℚ) (fc : FeeConfig) :
    ∀ id ∈ bookIds (b.matchOrder tid side amount limit fc).2, id ∈ bookIds b := by
  intro id hid
  rcases side with _ | _
  case Buy =>
    rcases List.mem_append.mp hid with hid | hid
    · exact List.mem_append_left _ hid
    · refine List.mem_append_right _ ?_
      exact (fillLevels_ids_perm tid fc (buyStop limit) b.asks amount).mem_iff.mpr
        (List.mem_append_right _ hid)
  case Sell =>
    rcases List.mem_append.mp hid with hid | hid
    · refine List.mem_append_left _ ?_
      have h1 : id ∈ sideIds (fillLevels tid fc (sellStop limit) amount
          b.bids.reverse).2.2.1 := (sideIds_reverse _).mem_iff.mp hid
      exact (sideIds_reverse b.bids).mem_iff.mp
        ((fillLevels_ids_perm tid fc (sellStop limit) b.bids.reverse amount).mem_iff.mpr
          (List.mem_append_right _ h1))
    · exact List.mem_append_right _ hid

theorem countP_eq_one_of_nodup {q : List OrderEntry} {id : Uuid}
    (hnd : (q.map (·.id)).Nodup) (hid : id ∈ q.map (·.id)) :
    q.countP (fun e => e.id = id) = 1 := by
  induction q with
  | nil => simp at hid
  | cons e rest ih =>
    simp only [List.map_cons, List.nodup_cons] at hnd
    rw [List.countP_cons]
    by_cases he : e.id = id
    · have : rest.countP (fun e => e.id = id) = 0 := by
        rw [List.countP_eq_zero]
        intro x hx
        simp only [decide_eq_true_eq]
        intro hc
        exact hnd.1 (List.mem_map.mpr ⟨x, hx, by rw [hc, he]⟩)
      simp [this, he]
    · have hc : id ∈ rest.map (·.id) := by
        simp only [List.map_cons, List.mem_cons] at hid
        rcases hid with hc | hc
        · exact absurd hc.symm he
        · exact hc
      have := ih hnd.2 hc
      simp [this, he]

/-! ## Digit-string lemmas for the last-trade-price claim -/

/-- Value of a little-endian digit list. -/
def ofLSB : List Nat → Nat
  | [] => 0
  | d :: t => d + 10 * ofLSB t

theorem digitsLE_lt : ∀ (fuel n : Nat), ∀ d ∈ digitsLE fuel n, d < 10 := by
  intro fuel
  induction fuel with
  | zero => intro n d hd; simp [digitsLE] at hd
  | succ f ih =>
    intro n d hd
    cases n with
    | zero => simp [digitsLE] at hd
    | succ k =>
      simp only [digitsLE] at hd
      rcases List.mem_cons.mp hd with hd | hd
      · rw [hd]; exact Nat.mod_lt _ (by norm_num)
      · exact ih _ d hd

theorem digitsLE_ofLSB : ∀ (fuel n : Nat), n ≤ fuel → ofLSB (digitsLE fuel n) = n := by
  intro fuel
  induction fuel with
  | zero => intro n h; interval_cases n; simp [digitsLE, ofLSB]
  | succ f ih =>
    intro n h
    cases n with
    | zero => simp [digitsLE, ofLSB]
    | succ k =>
      simp only [digitsLE, ofLSB]
      have hdiv : (k + 1) / 10 ≤ f := by
        have h1 : (k + 1) / 10 < k + 1 := Nat.div_lt_self (Nat.succ_pos k) (by norm_num)
        omega
      rw [ih _ hdiv]
      omega

theorem digitCh_isDigit {d : Nat} (h : d < 10) : (digitCh d).isDigit = true := by
  interval_cases d <;> decide

theorem digitCh_toNat {d : Nat} (h : d < 10) : (digitCh d).toNat = d + 48 := by
  interval_cases d <;> decide

theorem natChars_all_digit (n : Nat) : ∀ c ∈ natChars n, c.isDigit = true := by
  intro c hc
  rw [natChars] at hc
  by_cases h : n = 0
  · rw [if_pos h] at hc
    rw [List.mem_singleton.mp hc]
    decide
  · rw [if_neg h] at hc
    rw [List.mem_reverse] at hc
    rcases List.mem_map.mp hc with ⟨d, hd, hdc⟩
    rw [← hdc]
    exact digitCh_isDigit (digitsLE_lt n n d hd)

theorem natChars_ne_nil (n : Nat) : natChars n ≠ [] := by
  rw [natChars]
  by_cases h : n = 0
  · rw [if_pos h]; simp
  · rw [if_neg h]
    rcases n with _ | k
    · exact absurd rfl h
    · simp [digitsLE]

theorem foldl_digit_chars :
    ∀ (ds : List Nat), (∀ d ∈ ds, d < 10) → ∀ (a : Nat),
    ((ds.map digitCh).reverse).foldl (fun a c => a * 10 + (c.toNat - 48)) a =
      a * 10 ^ ds.length + ofLSB ds := by
  intro ds
  induction ds with
  | nil => intro _ a; simp [ofLSB]
  | cons d t ih =>
    intro hlt a
    rw [List.map_cons, List.reverse_cons, List.foldl_append]
    rw [ih (fun x hx => hlt x (List.mem_cons_of_mem _ hx)) a]
    simp only [List.foldl_cons, List.foldl_nil, ofLSB, List.length_cons]
    rw [digitCh_toNat (hlt d (List.mem_cons_self _ _))]
    have : d + 48 - 48 = d := by omega
    rw [this]
    ring

theorem parseNatDigits_natChars (n : Nat) :
    parseNatDigits (natChars n) = some n := by
  by_cases h : n = 0
  · rw [h]
    decide
  · have hall : (natChars n).all Char.isDigit = true := by
      rw [List.all_eq_true]
      intro c hc
      exact natChars_all_digit n c hc
    rw [parseNatDigits, if_pos ⟨natChars_ne_nil n, hall⟩]
    simp only [natChars, if_neg h]
    rw [foldl_digit_chars _ (digitsLE_lt n n) 0]
    rw [digitsLE_ofLSB n n (le_refl n)]
    simp

theorem parseNatDigits_dot (l1 l2 : List Char) :
    parseNatDigits (l1 ++ '.' :: l2) = none := by
  rw [parseNatDigits, if_neg]
  rintro ⟨-, hall⟩
  have := List.all_eq_true.mp hall '.' (List.mem_append_right _ (List.mem_cons_self _ _))
  simp at this

theorem parseI64_dot (l1 l2 : List Char) (h : ∀ c ∈ l1, c.isDigit = true) :
    parseI64 (l1 ++ '.' :: l2) = none := by
  cases l1 with
  | nil =>
    rw [List.nil_append, parseI64]
    rw [if_neg (by decide), if_neg (by decide)]
    rw [show ('.' :: l2) = ([] ++ '.' :: l2) by simp, parseNatDigits_dot]
    rfl
  | cons c cs =>
    rw [List.cons_append, parseI64]
    have hcd := h c (List.mem_cons_self _ _)
    rw [if_neg (by intro hc; rw [hc] at hcd; simp at hcd)]
    rw [if_neg (by intro hc; rw [hc] at hcd; simp at hcd)]
    rw [show (c :: (cs ++ '.' :: l2)) = ((c :: cs) ++ '.' :: l2) by simp, parseNatDigits_dot]
    rfl

theorem parseI64_dot_neg (l1 l2 : List Char) :
    parseI64 ('-' :: (l1 ++ '.' :: l2)) = none := by
  rw [parseI64, if_pos rfl, parseNatDigits_dot]
  rfl

theorem toChars_padded_digits (d : Dec) :
    ∀ c ∈ (if (natChars d.mantissa.natAbs).length ≤ d.scale then
      List.replicate (d.scale + 1 - (natChars d.mantissa.natAbs).length) '0' ++
        natChars d.mantissa.natAbs
    else natChars d.mantissa.natAbs), c.isDigit = true := by
  intro c hc
  split at hc
  · rcases List.mem_append.mp hc with hc | hc
    · rw [List.eq_of_mem_replicate hc]
      decide
    · exact natChars_all_digit _ c hc
  · exact natChars_all_digit _ c hc

theorem parseI64_toChars_scale_ne (d : Dec) (hs : d.scale ≠ 0) :
    parseI64 (Dec.toChars d) = none := by
  simp only [Dec.toChars]
  rw [if_neg hs]
  by_cases hm : d.mantissa < 0
  · rw [if_pos hm, List.singleton_append]
    exact parseI64_dot_neg _ _
  · rw [if_neg hm, List.nil_append]
    refine parseI64_dot _ _ ?_
    intro c hc
    exact toChars_padded_digits d c (List.mem_of_mem_take hc)

theorem setLastTradePrice_scale_ne (m : Int) (s : Nat) (hs : s ≠ 0) :
    setLastTradePrice ⟨m, s⟩ = 0 := by
  rw [setLastTradePrice]
  have hmul : Dec.mul ⟨m, s⟩ decE8 = ⟨m * 100000000, s⟩ := by
    simp [Dec.mul, decE8]
  rw [hmul, parseI64_toChars_scale_ne ⟨m * 100000000, s⟩ hs]
  rfl

theorem setLastTradePrice_scale_zero (m : Nat) (hm : m * 100000000 < 2 ^ 63) :
    setLastTradePrice ⟨(m : Int), 0⟩ = (m : Int) * 100000000 := by
  rw [setLastTradePrice]
  have hmul : Dec.mul ⟨(m : Int), 0⟩ decE8 = ⟨(m : Int) * 100000000, 0⟩ := by
    simp [Dec.mul, decE8]
  rw [hmul]
  have hcast : ((m : Int) * 100000000) = ((m * 100000000 : Nat) : Int) := by
    push_cast
    ring
  have habs : ((m : Int) * 100000000).natAbs = m * 100000000 := by
    rw [hcast]
    exact Int.natAbs_ofNat _
  have hneg : ¬((m : Int) * 100000000 < 0) := by
    rw [hcast]
    exact not_lt.mpr (Int.ofNat_nonneg _)
  have hlen : ¬((natChars (m * 100000000)).length ≤ (0 : Nat)) := by
    rw [not_le]
    rcases Nat.eq_zero_or_pos (natChars (m * 100000000)).length with hz | hp
    · exact absurd (List.length_eq_zero.mp hz) (natChars_ne_nil _)
    · exact hp
  have hchars : Dec.toChars ⟨(m : Int) * 100000000, 0⟩ = natChars (m * 100000000) := by
    simp only [Dec.toChars, habs]
    rw [if_neg hlen]
    simp [if_neg hneg]
  rw [hchars]
  obtain ⟨c, cs, hcons⟩ : ∃ c cs, natChars (m * 100000000) = c :: cs := by
    cases hnc : natChars (m * 100000000) with
    | nil => exact absurd hnc (natChars_ne_nil _)
    | cons c cs => exact ⟨c, cs, rfl⟩
  have hcd : c.isDigit = true :=
    natChars_all_digit _ c (by rw [hcons]; exact List.mem_cons_self _ _)
  rw [hcons]
  simp only [parseI64]
  rw [if_neg (by intro hc; rw [hc] at hcd; simp at hcd)]
  rw [if_neg (by intro hc; rw [hc] at hcd; simp at hcd)]
  rw [← hcons, parseNatDigits_natChars]
  simp only [Option.bind_eq_bind, Option.some_bind, if_pos hm]
  rw [Option.getD_some, hcast]

/-! ## The claims -/

/-- C5, counterexample: the claim asserts decode(encode(p)) = p for every price
with at most 8 fractional digits, but `value as i64` in PriceLevel::from_decimal
wraps: at p = 10^11 (an integer, so certainly within 8 fractional digits) the
scaled value 10^19 exceeds the i64 range and the round-trip fails. -/
theorem C5_counterexample :
    PriceLevel.fromDecimal (100000000000 : ℚ) = -8446744073709551616 ∧
    PriceLevel.toDecimal (PriceLevel.fromDecimal (100000000000 : ℚ)) ≠
      (100000000000 : ℚ) := by
  with_unfolding_all decide

/-- C5, amended: for every price p = m / 10^8 whose scaled value m lies within
the i64 range, PriceLevel.from_decimal(p).to_decimal() = p; and PriceLevel
ordering (the ordering of the raw i64 keys) is total and agrees with the
numeric ordering of the encoded prices. -/
theorem C5_roundtrip (m : Int) (h1 : -(2 ^ 63) ≤ m) (h2 : m < 2 ^ 63) :
    (PriceLevel.fromDecimal ((m : ℚ) / 100000000) = m ∧
      PriceLevel.toDecimal (PriceLevel.fromDecimal ((m : ℚ) / 100000000)) =
        (m : ℚ) / 100000000) ∧
    (∀ k1 k2 : PriceLevel, k1 < k2 ↔
      PriceLevel.toDecimal k1 < PriceLevel.toDecimal k2) := by
  have hkey : PriceLevel.fromDecimal ((m : ℚ) / 100000000) = m := by
    show wrap64 (truncQ ((m : ℚ) / 100000000 * 100000000)) = m
    have hmul : (m : ℚ) / 100000000 * 100000000 = (m : ℚ) := by
      field_simp
    rw [hmul]
    have htrunc : truncQ ((m : ℚ)) = m := by
      rw [truncQ]
      split
      · exact Int.floor_intCast m
      · exact Int.ceil_intCast m
    rw [htrunc]
    simp only [wrap64]
    omega
  refine ⟨⟨hkey, by rw [hkey]; rfl⟩, ?_⟩
  intro k1 k2
  rw [PriceLevel.toDecimal, PriceLevel.toDecimal,
    div_lt_div_iff_of_pos_right (by norm_num : (0 : ℚ) < 100000000)]
  exact_mod_cast Iff.rfl

theorem C5_roundtrip_witness :
    -(2 ^ 63) ≤ (10000000000 : Int) ∧ (10000000000 : Int) < 2 ^ 63 ∧
    (PriceLevel.fromDecimal ((10000000000 : ℚ) / 100000000) = 10000000000 ∧
      PriceLevel.toDecimal (PriceLevel.fromDecimal ((10000000000 : ℚ) / 100000000)) =
        (10000000000 : ℚ) / 100000000) ∧
    ((5 : PriceLevel) < 7 ↔ PriceLevel.toDecimal 5 < PriceLevel.toDecimal 7) :=
  ⟨by decide, by decide,
    (C5_roundtrip 10000000000 (by decide) (by decide)).1,
    (C5_roundtrip 10000000000 (by decide) (by decide)).2 5 7⟩

/-- C10, counterexample: the claim asserts that for any price with at most 8
fractional digits whose scaled value fits in i64, last_trade_price() afterwards
returns Some(price).  But the stored value depends on the *scale* of the
Decimal, not its numeric value: the price 100.0 (mantissa 1000, scale 1, the
representation produced by parsing "100.0") scales to mantissa 10^11 at scale 1,
prints as "10000000000.0", fails the i64 parse, and stores 0 — so
last_trade_price() returns None, not Some(100). -/
theorem C10_counterexample :
    Dec.value ⟨1000, 1⟩ = 100 ∧
    setLastTradePrice ⟨1000, 1⟩ = 0 ∧
    lastTradePrice (setLastTradePrice ⟨1000, 1⟩) = none ∧
    lastTradePrice (setLastTradePrice ⟨1000, 1⟩) ≠ some (Dec.value ⟨1000, 1⟩) := by
  refine ⟨by with_unfolding_all decide, by decide, by decide, by decide⟩

/-- C10, amended: last_trade_price() returns None exactly when the stored raw
value is 0.  set_last_trade_price(p) stores 0 for every Decimal whose scale is
nonzero (any price rendered with a decimal point, regardless of its numeric
value), because the product keeps the scale and its display string then
contains a fractional part that fails the i64 parse; for a scale-0 (integer
mantissa) nonnegative price p = m with m * 10^8 inside the i64 range it stores
m * 10^8, and last_trade_price() then returns Some(m) when m is nonzero. -/
theorem C10_last_trade_price (raw : Int) (m2 : Int) (s : Nat) (m : Nat)
    (hs : s ≠ 0) (hm : m * 100000000 < 2 ^ 63) :
    (lastTradePrice raw = none ↔ raw = 0) ∧
    setLastTradePrice ⟨m2, s⟩ = 0 ∧
    setLastTradePrice ⟨(m : Int), 0⟩ = (m : Int) * 100000000 ∧
    (m ≠ 0 → lastTradePrice (setLastTradePrice ⟨(m : Int), 0⟩) =
      some (Dec.value ⟨(m : Int), 0⟩)) := by
  refine ⟨?_, setLastTradePrice_scale_ne m2 s hs, setLastTradePrice_scale_zero m hm, ?_⟩
  · rw [lastTradePrice]
    split
    · next h => exact iff_of_true rfl h
    · next h => exact iff_of_false (by simp) h
  · intro hm0
    rw [setLastTradePrice_scale_zero m hm, lastTradePrice]
    rw [if_neg (by positivity)]
    rw [Dec.value]
    norm_num

theorem C10_last_trade_price_witness :
    (1 : Nat) ≠ 0 ∧ (100 : Nat) * 100000000 < 2 ^ 63 ∧ (100 : Nat) ≠ 0 ∧
    (lastTradePrice 7 = none ↔ (7 : Int) = 0) ∧
    setLastTradePrice ⟨1000, 1⟩ = 0 ∧
    setLastTradePrice ⟨(100 : Int), 0⟩ = (100 : Int) * 100000000 ∧
    lastTradePrice (setLastTradePrice ⟨(100 : Int), 0⟩) =
      some (Dec.value ⟨(100 : Int), 0⟩) :=
  ⟨by decide, by decide, by decide,
    (C10_last_trade_price 7 1000 1 100 (by decide) (by decide)).1,
    (C10_last_trade_price 7 1000 1 100 (by decide) (by decide)).2.1,
    (C10_last_trade_price 7 1000 1 100 (by decide) (by decide)).2.2.1,
    (C10_last_trade_price 7 1000 1 100 (by decide) (by decide)).2.2.2 (by decide)⟩

/-- C8: every trade produced by a match step carries
maker_fee = amount * price * maker_fee_rate and
taker_fee = amount * price * taker_fee_rate, computed exactly; the default
FeeConfig is (0.0002, 0.0005), and a trade of amount 1 at price 100 under it
carries maker_fee 0.02 and taker_fee 0.05. -/
theorem C8_fees (b : Orderbook) (tid : Uuid) (side : Side) (amount : ℚ)
    (limit : Option ℚ) (fc : FeeConfig) :
    (∀ t ∈ (b.matchOrder tid side amount limit fc).1.1,
      t.maker_fee = t.amount * t.price * fc.maker_fee_rate ∧
      t.taker_fee = t.amount * t.price * fc.taker_fee_rate) ∧
    FeeConfig.default.maker_fee_rate = 2 / 10000 ∧
    FeeConfig.default.taker_fee_rate = 5 / 10000 ∧
    ((Orderbook.new.addOrder (testEntry 1 100 1 Side.Sell)).matchOrder 2
        Side.Buy 1 (some 100) FeeConfig.default).1.1.map
      (fun t => (t.amount, t.price, t.maker_fee, t.taker_fee)) =
      [(1, 100, 2 / 100, 5 / 100)] := by
  refine ⟨?_, by norm_num [FeeConfig.default], by norm_num [FeeConfig.default],
    by with_unfolding_all decide⟩
  intro t ht
  rcases side with _ | _
  · have := fillLevels_fees tid fc (buyStop limit) b.asks amount t ht
    exact ⟨this.1, this.2.1⟩
  · have := fillLevels_fees tid fc (sellStop limit) b.bids.reverse amount t ht
    exact ⟨this.1, this.2.1⟩

def c8Trade : TradeExecution :=
  { maker_order_id := 1, taker_order_id := 2, maker_address := "0x1234"
    price := 100, amount := 1, maker_fee := 1 / 50, taker_fee := 1 / 20 }

theorem C8_fees_witness :
    c8Trade ∈ ((Orderbook.new.addOrder (testEntry 1 100 1 Side.Sell)).matchOrder 2
      Side.Buy 1 (some 100) FeeConfig.default).1.1 ∧
    c8Trade.maker_fee = c8Trade.amount * c8Trade.price * FeeConfig.default.maker_fee_rate ∧
    c8Trade.taker_fee = c8Trade.amount * c8Trade.price * FeeConfig.default.taker_fee_rate :=
  ⟨by with_unfolding_all decide,
    (C8_fees (Orderbook.new.addOrder (testEntry 1 100 1 Side.Sell)) 2 Side.Buy 1
      (some 100) FeeConfig.default).1 c8Trade (by with_unfolding_all decide)⟩

/-- C1, counterexample: the claim asserts every trade of a limit buy executes
at a price ≤ the limit.  But match_order compares only the 8-decimal truncated
level price against the limit and then executes at the maker's untruncated
price: a resting ask priced 100 + 5·10⁻⁹ sits at level 100.00000000, passes the
check against a buy limit of 100, and trades at 100.000000005 > 100. -/
theorem C1_counterexample :
    ¬(∀ t ∈ ((Orderbook.new.addOrder
        (testEntry 1 (100 + 5 / 10 ^ 9) 1 Side.Sell)).matchOrder 2 Side.Buy 1
        (some 100) FeeConfig.default).1.1,
      t.price ≤ 100) := by
  with_unfolding_all decide

/-- C1, amended: for every book satisfying the structural invariant, every
trade of a limit buy has its price's 8-decimal truncation (the price level it
rested at) ≤ the limit, and every trade of a limit sell has its truncation
≥ the limit; the executed untruncated maker price itself may exceed a buy limit
(or undercut a sell limit) by less than one level tick. -/
theorem C1_price_bound (b : Orderbook) (hInv : BookInv b) (tid : Uuid)
    (amount : ℚ) (L : ℚ) (fc : FeeConfig) :
    (∀ t ∈ (b.matchOrder tid Side.Buy amount (some L) fc).1.1,
      PriceLevel.toDecimal (PriceLevel.fromDecimal t.price) ≤ L) ∧
    (∀ t ∈ (b.matchOrder tid Side.Sell amount (some L) fc).1.1,
      L ≤ PriceLevel.toDecimal (PriceLevel.fromDecimal t.price)) := by
  constructor
  · intro t ht
    rcases fillLevels_trade_src tid fc (buyStop (some L)) b.asks amount t ht with
      ⟨k, q, hkq, hstop, e, he, hmk, hpr⟩
    have hkey := hInv.asksKey (k, q) hkq e he
    rw [hpr, hkey]
    have : ¬(PriceLevel.toDecimal k > L) := by
      intro hc
      rw [buyStop] at hstop
      simp [hc] at hstop
    exact not_lt.mp this
  · intro t ht
    rcases fillLevels_trade_src tid fc (sellStop (some L)) b.bids.reverse amount t ht with
      ⟨k, q, hkq, hstop, e, he, hmk, hpr⟩
    have hkey := hInv.bidsKey (k, q) (List.mem_reverse.mp hkq) e he
    rw [hpr, hkey]
    have : ¬(PriceLevel.toDecimal k < L) := by
      intro hc
      rw [sellStop] at hstop
      simp [hc] at hstop
    exact not_lt.mp this

def c1Book : Orderbook :=
  Orderbook.new.addOrder (testEntry 1 (100 + 5 / 10 ^ 9) 1 Side.Sell)

def ltChainCheck : List Int → Bool
  | [] => true
  | [_] => true
  | a :: b :: t => decide (a < b) && ltChainCheck (b :: t)

theorem chain'_lt_iff (l : List Int) :
    List.Chain' (· < ·) l ↔ ltChainCheck l = true := by
  induction l with
  | nil => simp [ltChainCheck]
  | cons a t ih =>
    cases t with
    | nil => simp [ltChainCheck]
    | cons b t2 =>
      rw [List.chain'_cons, ltChainCheck, Bool.and_eq_true, decide_eq_true_eq, ih]

set_option maxRecDepth 2000 in
theorem C1_price_bound_witness :
    BookInv c1Book ∧
    ((c1Book.matchOrder 2 Side.Buy 1 (some 100) FeeConfig.default).1.1.map
      (fun t => t.maker_order_id)) = [1] ∧
    ∀ t ∈ (c1Book.matchOrder 2 Side.Buy 1 (some 100) FeeConfig.default).1.1,
      PriceLevel.toDecimal (PriceLevel.fromDecimal t.price) ≤ 100 := by
  have hInv : BookInv c1Book := by
    constructor <;> first
      | exact (chain'_lt_iff _).mpr (by with_unfolding_all decide)
      | with_unfolding_all decide
  exact ⟨hInv, by with_unfolding_all decide,
    (C1_price_bound c1Book hInv 2 1 100 FeeConfig.default).1⟩

/-- C7: cancelling the same id a second time returns None; cancelling an id not
resident in the book returns None; a cancel that returns None leaves the book
unchanged; and a successful cancel returns the removed entry, whose id was
resident before and is gone afterwards. -/
theorem C7_cancel_idempotent (b : Orderbook) (hInv : BookInv b) (id : Uuid) :
    ((b.cancelOrder id).2.cancelOrder id).1 = none ∧
    (id ∉ bookIds b → (b.cancelOrder id).1 = none) ∧
    ((b.cancelOrder id).1 = none → (b.cancelOrder id).2 = b) ∧
    (∀ e, (b.cancelOrder id).1 = some e → e.id = id ∧ id ∈ bookIds b ∧
      id ∉ bookIds (b.cancelOrder id).2) := by
  refine ⟨cancelOrder_second_none b id, ?_, ?_, ?_⟩
  · intro hnot
    rcases hl : indexLookup b.order_index id with _ | ⟨s, k⟩
    · rw [cancelOrder_lookup_none hl]
    · rcases cancelOrder_found hInv hl with ⟨e, _, _, hin, _⟩
      exact absurd hin hnot
  · intro hnone
    rw [cancelOrder_lookup_none ((cancelOrder_none_iff hInv id).mp hnone)]
  · intro e he
    rcases hl : indexLookup b.order_index id with _ | ⟨s, k⟩
    · rw [cancelOrder_lookup_none hl] at he
      exact Option.noConfusion he
    · rcases cancelOrder_found hInv hl with ⟨e', he', hid, hin, hout⟩
      rw [he] at he'
      obtain rfl := Option.some.inj he'
      exact ⟨hid, hin, hout⟩

def c7Book : Orderbook := Orderbook.new.addOrder (testEntry 1 100 1 Side.Sell)

theorem C7_cancel_idempotent_witness :
    BookInv c7Book ∧
    (((c7Book.cancelOrder 1).2.cancelOrder 1).1 = none ∧
     (1 ∉ bookIds c7Book → (c7Book.cancelOrder 1).1 = none) ∧
     ((c7Book.cancelOrder 1).1 = none → (c7Book.cancelOrder 1).2 = c7Book) ∧
     (∀ e, (c7Book.cancelOrder 1).1 = some e → e.id = 1 ∧ 1 ∈ bookIds c7Book ∧
       1 ∉ bookIds (c7Book.cancelOrder 1).2)) := by
  have hInv : BookInv c7Book := by
    constructor <;> first
      | exact (chain'_lt_iff _).mpr (by with_unfolding_all decide)
      | with_unfolding_all decide
  exact ⟨hInv, C7_cancel_idempotent c7Book hInv 1⟩

/-- C4: a market order (no limit price) submitted against an empty opposite
side produces zero trades, returns the full amount unmatched, leaves the book
unchanged, and is assigned final status Rejected; and in general a market
order's unmatched remainder is never inserted into the book as a resting order
(a fresh id is not resident after the submit). -/
theorem C4_market_order (b : Orderbook) (orderId : Uuid) (addr : String)
    (side : Side) (amount : ℚ) (price : Option ℚ) (now : Int) (fc : FeeConfig) :
    (b.oppSide side = [] →
      (submitOrder b orderId addr side OrderType.Market amount price now fc).1 =
        (OrderStatus.Rejected, [], amount) ∧
      (submitOrder b orderId addr side OrderType.Market amount price now fc).2 = b) ∧
    (orderId ∉ bookIds b →
      orderId ∉ bookIds
        (submitOrder b orderId addr side OrderType.Market amount price now fc).2) := by
  constructor
  · intro hempty
    rcases b with ⟨bb, ba, bi⟩
    cases side
    case Buy =>
      simp only [Orderbook.oppSide] at hempty
      subst hempty
      constructor
      · simp [submitOrder, Orderbook.matchOrder, fillLevels]
      · simp [submitOrder, Orderbook.matchOrder, fillLevels]
    case Sell =>
      simp only [Orderbook.oppSide] at hempty
      subst hempty
      constructor
      · simp [submitOrder, Orderbook.matchOrder, fillLevels]
      · simp [submitOrder, Orderbook.matchOrder, fillLevels]
  · intro hfresh hc
    have hc' : orderId ∈
        bookIds (b.matchOrder orderId side amount none fc).2 := hc
    exact hfresh (matchOrder_ids_sub b orderId side amount none fc orderId hc')

theorem C4_market_order_witness :
    Orderbook.new.oppSide Side.Buy = [] ∧ 7 ∉ bookIds Orderbook.new ∧
    (submitOrder Orderbook.new 7 "0xabcd" Side.Buy OrderType.Market 5 none 0
      FeeConfig.default).1 = (OrderStatus.Rejected, [], 5) ∧
    (submitOrder Orderbook.new 7 "0xabcd" Side.Buy OrderType.Market 5 none 0
      FeeConfig.default).2 = Orderbook.new ∧
    7 ∉ bookIds (submitOrder Orderbook.new 7 "0xabcd" Side.Buy OrderType.Market 5
      none 0 FeeConfig.default).2 := by
  have h := C4_market_order Orderbook.new 7 "0xabcd" Side.Buy 5 none 0 FeeConfig.default
  exact ⟨rfl, by decide, (h.1 rfl).1, (h.1 rfl).2, h.2 (by decide)⟩

/-- C2: price-time priority.  add_order appends the new entry at the back of
the queue of its price level, so queue order is arrival order; and match_order
consumes each level's queue front-first: if a later entry of a level supplies
any trade, every earlier entry of that level is named by a trade for its full
remaining amount and its id is removed from the book. -/
theorem C2_fifo (b : Orderbook) (hInv : BookInv b) :
    (∀ e : OrderEntry,
      mapGet ((b.addOrder e).sideMap e.side) (PriceLevel.fromDecimal e.price) =
        some ((mapGet (b.sideMap e.side) (PriceLevel.fromDecimal e.price)).getD []
          ++ [e])) ∧
    (∀ (tid : Uuid) (side : Side) (amount : ℚ) (limit : Option ℚ) (fc : FeeConfig)
      (k : PriceLevel) (q : List OrderEntry), (k, q) ∈ b.oppSide side →
      ∀ (l1 : List OrderEntry) (e1 : OrderEntry) (l2 : List OrderEntry)
        (e2 : OrderEntry) (l3 : List OrderEntry),
      q = l1 ++ e1 :: l2 ++ e2 :: l3 →
      (∃ t ∈ (b.matchOrder tid side amount limit fc).1.1,
        t.maker_order_id = e2.id) →
      ∃ t' ∈ (b.matchOrder tid side amount limit fc).1.1,
        t'.maker_order_id = e1.id ∧ t'.amount = e1.remaining_amount ∧
        e1.id ∉ bookIds (b.matchOrder tid side amount limit fc).2) := by
  have hndB : (sideIds b.bids).Nodup := (List.nodup_append.mp hInv.idsNodup).1
  have hndA : (sideIds b.asks).Nodup := (List.nodup_append.mp hInv.idsNodup).2.1
  have hdisj := (List.nodup_append.mp hInv.idsNodup).2.2
  constructor
  · intro e
    have hs : List.Chain' (· < ·) ((b.sideMap e.side).map Prod.fst) := by
      cases e.side
      · exact hInv.bidsSorted
      · exact hInv.asksSorted
    exact addOrder_queue b e hs
  · intro tid side amount limit fc k q hkq l1 e1 l2 e2 l3 hq hex
    cases side
    case Buy =>
      have hkq' : (k, q) ∈ b.asks := hkq
      rcases fillLevels_fifo tid fc (buyStop limit) b.asks amount hndA k q hkq'
        l1 e1 l2 e2 l3 hq hex with ⟨t', ht', ha, hb, hrm⟩
      have hnd2 : ((fillLevels tid fc (buyStop limit) amount b.asks).2.2.2 ++
          sideIds (fillLevels tid fc (buyStop limit) amount b.asks).2.2.1).Nodup :=
        (fillLevels_ids_perm tid fc (buyStop limit) b.asks amount).nodup hndA
      have hnotA : e1.id ∉
          sideIds (fillLevels tid fc (buyStop limit) amount b.asks).2.2.1 :=
        (List.nodup_append.mp hnd2).2.2 hrm
      have hinAsks : e1.id ∈ sideIds b.asks :=
        fillLevels_rm_sub tid fc (buyStop limit) b.asks amount e1.id hrm
      refine ⟨t', ht', ha, hb, ?_⟩
      intro hc
      have hc' : e1.id ∈ sideIds b.bids ++
          sideIds (fillLevels tid fc (buyStop limit) amount b.asks).2.2.1 := hc
      rcases List.mem_append.mp hc' with hc' | hc'
      · exact hdisj hc' hinAsks
      · exact hnotA hc'
    case Sell =>
      have hkq' : (k, q) ∈ b.bids.reverse := List.mem_reverse.mpr hkq
      have hndR : (sideIds b.bids.reverse).Nodup :=
        (sideIds_reverse b.bids).symm.nodup hndB
      rcases fillLevels_fifo tid fc (sellStop limit) b.bids.reverse amount hndR k q
        hkq' l1 e1 l2 e2 l3 hq hex with ⟨t', ht', ha, hb, hrm⟩
      have hnd2 : ((fillLevels tid fc (sellStop limit) amount b.bids.reverse).2.2.2 ++
          sideIds (fillLevels tid fc (sellStop limit) amount
            b.bids.reverse).2.2.1).Nodup :=
        (fillLevels_ids_perm tid fc (sellStop limit) b.bids.reverse amount).nodup hndR
      have hnotB : e1.id ∉
          sideIds (fillLevels tid fc (sellStop limit) amount b.bids.reverse).2.2.1 :=
        (List.nodup_append.mp hnd2).2.2 hrm
      have hinBids : e1.id ∈ sideIds b.bids :=
        (sideIds_reverse b.bids).mem_iff.mp
          (fillLevels_rm_sub tid fc (sellStop limit) b.bids.reverse amount e1.id hrm)
      refine ⟨t', ht', ha, hb, ?_⟩
      intro hc
      have hc' : e1.id ∈ sideIds (fillLevels tid fc (sellStop limit) amount
          b.bids.reverse).2.2.1.reverse ++ sideIds b.asks := hc
      rcases List.mem_append.mp hc' with hc' | hc'
      · exact hnotB ((sideIds_reverse _).mem_iff.mp hc')
      · exact hdisj hinBids hc'

def c2Book : Orderbook :=
  (Orderbook.new.addOrder (testEntry 1 100 1 Side.Sell)).addOrder
    (testEntry 2 100 1 Side.Sell)

theorem C2_fifo_witness :
    BookInv c2Book ∧
    (PriceLevel.fromDecimal 100,
      [testEntry 1 100 1 Side.Sell, testEntry 2 100 1 Side.Sell]) ∈
        c2Book.oppSide Side.Buy ∧
    (∃ t ∈ (c2Book.matchOrder 3 Side.Buy 2 (some 100) FeeConfig.default).1.1,
      t.maker_order_id = 2) ∧
    ∃ t' ∈ (c2Book.matchOrder 3 Side.Buy 2 (some 100) FeeConfig.default).1.1,
      t'.maker_order_id = 1 ∧ t'.amount = 1 ∧
      1 ∉ bookIds (c2Book.matchOrder 3 Side.Buy 2 (some 100) FeeConfig.default).2 := by
  have hInv : BookInv c2Book := by
    constructor <;> first
      | exact (chain'_lt_iff _).mpr (by with_unfolding_all decide)
      | with_unfolding_all decide
  refine ⟨hInv, by with_unfolding_all decide, by with_unfolding_all decide, ?_⟩
  exact (C2_fifo c2Book hInv).2 3 Side.Buy 2 (some 100) FeeConfig.default
    (PriceLevel.fromDecimal 100)
    [testEntry 1 100 1 Side.Sell, testEntry 2 100 1 Side.Sell]
    (by with_unfolding_all decide) [] (testEntry 1 100 1 Side.Sell) []
    (testEntry 2 100 1 Side.Sell) [] rfl (by with_unfolding_all decide)

theorem toDecimal_lt {k1 k2 : PriceLevel} (h : k1 < k2) :
    PriceLevel.toDecimal k1 < PriceLevel.toDecimal k2 := by
  rw [PriceLevel.toDecimal, PriceLevel.toDecimal,
    div_lt_div_iff_of_pos_right (by norm_num : (0 : ℚ) < 100000000)]
  exact_mod_cast h

/-- C9: the snapshot lists at most `depth` levels per side; every reported pair
is the decoded price of a resident level together with the sum of the
remaining amounts of the orders at that level; bids are listed best (highest)
price first and asks lowest price first. -/
theorem C9_snapshot (b : Orderbook) (hInv : BookInv b) (depth : Nat) :
    (b.snapshot depth).1.length ≤ depth ∧ (b.snapshot depth).2.length ≤ depth ∧
    (∀ pr ∈ (b.snapshot depth).1, ∃ k q, (k, q) ∈ b.bids ∧
      pr = (PriceLevel.toDecimal k, (q.map (·.remaining_amount)).sum)) ∧
    (∀ pr ∈ (b.snapshot depth).2, ∃ k q, (k, q) ∈ b.asks ∧
      pr = (PriceLevel.toDecimal k, (q.map (·.remaining_amount)).sum)) ∧
    List.Chain' (· > ·) ((b.snapshot depth).1.map Prod.fst) ∧
    List.Chain' (· < ·) ((b.snapshot depth).2.map Prod.fst) := by
  refine ⟨?_, ?_, ?_, ?_, ?_, ?_⟩
  · simp only [Orderbook.snapshot, List.length_map, List.length_take]
    exact min_le_left _ _
  · simp only [Orderbook.snapshot, List.length_map, List.length_take]
    exact min_le_left _ _
  · intro pr hpr
    simp only [Orderbook.snapshot] at hpr
    rcases List.mem_map.mp hpr with ⟨p, hp, rfl⟩
    exact ⟨p.1, p.2, List.mem_reverse.mp (List.mem_of_mem_take hp), rfl⟩
  · intro pr hpr
    simp only [Orderbook.snapshot] at hpr
    rcases List.mem_map.mp hpr with ⟨p, hp, rfl⟩
    exact ⟨p.1, p.2, List.mem_of_mem_take hp, rfl⟩
  · simp only [Orderbook.snapshot, List.map_map]
    refine (List.chain'_map _).mpr ?_
    have h1 : List.Chain' (fun p p' : PriceLevel × List OrderEntry => p'.1 < p.1)
        b.bids.reverse :=
      List.chain'_reverse.mpr ((List.chain'_map Prod.fst).mp hInv.bidsSorted)
    exact (h1.take depth).imp (fun _ _ h => toDecimal_lt h)
  · simp only [Orderbook.snapshot, List.map_map]
    refine (List.chain'_map _).mpr ?_
    have h1 : List.Chain' (fun p p' : PriceLevel × List OrderEntry => p.1 < p'.1)
        b.asks :=
      (List.chain'_map Prod.fst).mp hInv.asksSorted
    exact (h1.take depth).imp (fun _ _ h => toDecimal_lt h)

def c9Book : Orderbook :=
  (((Orderbook.new.addOrder (testEntry 1 90 1 Side.Buy)).addOrder
    (testEntry 2 95 2 Side.Buy)).addOrder
    (testEntry 3 100 1 Side.Sell)).addOrder (testEntry 4 105 3 Side.Sell)

theorem C9_snapshot_witness :
    BookInv c9Book ∧
    ((c9Book.snapshot 1).1.length ≤ 1 ∧ (c9Book.snapshot 1).2.length ≤ 1 ∧
     (∀ pr ∈ (c9Book.snapshot 1).1, ∃ k q, (k, q) ∈ c9Book.bids ∧
       pr = (PriceLevel.toDecimal k, (q.map (·.remaining_amount)).sum)) ∧
     (∀ pr ∈ (c9Book.snapshot 1).2, ∃ k q, (k, q) ∈ c9Book.asks ∧
       pr = (PriceLevel.toDecimal k, (q.map (·.remaining_amount)).sum)) ∧
     List.Chain' (· > ·) ((c9Book.snapshot 1).1.map Prod.fst) ∧
     List.Chain' (· < ·) ((c9Book.snapshot 1).2.map Prod.fst)) := by
  have hInv : BookInv c9Book := by
    constructor <;> first
      | exact (chain'_lt_iff _).mpr (by with_unfolding_all decide)
      | with_unfolding_all decide
  exact ⟨hInv, C9_snapshot c9Book hInv 1⟩

theorem queue_ids_nodup {m : BookSide} (hnd : (sideIds m).Nodup) {k : PriceLevel}
    {q : List OrderEntry} (hkq : (k, q) ∈ m) : (q.map (·.id)).Nodup := by
  have hqm : q ∈ m.map (·.2) := List.mem_map.mpr ⟨(k, q), hkq, rfl⟩
  have hsub : List.Sublist q (allEntries m) := List.sublist_join hqm
  exact List.Nodup.sublist (hsub.map (·.id)) hnd

/-- C6: from the empty book, after any sequence of add_order (fresh ids),
cancel_order and match_order calls, every id in the order index resolves to
exactly one entry in the queue at its recorded (side, price level), every
resident entry's id is in the index with its level, and no price level maps to
an empty queue. -/
theorem C6_index_invariant (b : Orderbook) (h : Reachable b) :
    (∀ x ∈ b.order_index, ∃ q, mapGet (b.sideMap x.2.1) x.2.2 = some q ∧
      q.countP (fun e => e.id = x.1) = 1) ∧
    (∀ p ∈ b.bids, ∀ e ∈ p.2, (e.id, (Side.Buy, p.1)) ∈ b.order_index) ∧
    (∀ p ∈ b.asks, ∀ e ∈ p.2, (e.id, (Side.Sell, p.1)) ∈ b.order_index) ∧
    (∀ p ∈ b.bids, p.2 ≠ []) ∧ (∀ p ∈ b.asks, p.2 ≠ []) := by
  have hInv := BookInv_reachable h
  refine ⟨?_, hInv.bidsComplete, hInv.asksComplete, hInv.bidsNE, hInv.asksNE⟩
  rintro ⟨id, s, k⟩ hx
  rcases hInv.idxSound _ hx with ⟨q, hq, hid⟩
  refine ⟨q, hq, ?_⟩
  have hkq := (mapGet_some_key hq).1
  have hndside : (sideIds (b.sideMap (id, s, k).2.1)).Nodup := by
    cases s
    · exact (List.nodup_append.mp hInv.idsNodup).1
    · exact (List.nodup_append.mp hInv.idsNodup).2.1
  exact countP_eq_one_of_nodup (queue_ids_nodup hndside hkq) hid

def c6Book : Orderbook := Orderbook.new.addOrder (testEntry 1 100 1 Side.Sell)

theorem C6_index_invariant_witness :
    Reachable c6Book ∧
    ((∀ x ∈ c6Book.order_index, ∃ q, mapGet (c6Book.sideMap x.2.1) x.2.2 = some q ∧
       q.countP (fun e => e.id = x.1) = 1) ∧
     (∀ p ∈ c6Book.bids, ∀ e ∈ p.2, (e.id, (Side.Buy, p.1)) ∈ c6Book.order_index) ∧
     (∀ p ∈ c6Book.asks, ∀ e ∈ p.2, (e.id, (Side.Sell, p.1)) ∈ c6Book.order_index) ∧
     (∀ p ∈ c6Book.bids, p.2 ≠ []) ∧ (∀ p ∈ c6Book.asks, p.2 ≠ [])) :=
  have hR : Reachable c6Book := Reachable.add Reachable.empty (by decide)
  ⟨hR, C6_index_invariant c6Book hR⟩

/-- C3: conservation and per-maker accounting.  The traded amounts sum to the
amount consumed from the taker; and for every entry of the matched-against
side, either its id left the book and the trades name it for exactly its whole
remaining amount, or it is still resident with its remaining amount decreased
by exactly the total amount the trades name it for (removal happens exactly
when the remaining amount reaches zero; amounts are positive by the data-model
invariant `Pos`). -/
theorem C3_conservation (b : Orderbook) (hInv : BookInv b) (hpos : Pos b)
    (tid : Uuid) (side : Side) (amount : ℚ) (limit : Option ℚ) (fc : FeeConfig) :
    ((b.matchOrder tid side amount limit fc).1.1.map (·.amount)).sum =
      amount - (b.matchOrder tid side amount limit fc).1.2 ∧
    ∀ e ∈ allEntries (b.oppSide side),
      (e.id ∉ bookIds (b.matchOrder tid side amount limit fc).2 ↔
        suppliedBy (b.matchOrder tid side amount limit fc).1.1 e.id =
          e.remaining_amount) ∧
      (e.id ∈ bookIds (b.matchOrder tid side amount limit fc).2 →
        ∃ e' ∈ allEntries ((b.matchOrder tid side amount limit fc).2.oppSide side),
          e'.id = e.id ∧ e'.remaining_amount =
            e.remaining_amount -
              suppliedBy (b.matchOrder tid side amount limit fc).1.1 e.id) := by
  have hndB : (sideIds b.bids).Nodup := (List.nodup_append.mp hInv.idsNodup).1
  have hndA : (sideIds b.asks).Nodup := (List.nodup_append.mp hInv.idsNodup).2.1
  have hdisj := (List.nodup_append.mp hInv.idsNodup).2.2
  constructor
  · cases side
    case Buy => exact fillLevels_sum tid fc (buyStop limit) b.asks amount
    case Sell => exact fillLevels_sum tid fc (sellStop limit) b.bids.reverse amount
  · intro e he
    cases side
    case Buy =>
      have he' : e ∈ allEntries b.asks := he
      have hacc := fillLevels_accounting tid fc (buyStop limit) b.asks amount hndA e he'
      have hperm := fillLevels_ids_perm tid fc (buyStop limit) b.asks amount
      have hnd2 := hperm.nodup hndA
      have heidA : e.id ∈ sideIds b.asks := List.mem_map.mpr ⟨e, he', rfl⟩
      have hiff : e.id ∉ bookIds (b.matchOrder tid Side.Buy amount limit fc).2 ↔
          e.id ∈ (fillLevels tid fc (buyStop limit) amount b.asks).2.2.2 := by
        constructor
        · intro hnot
          rcases List.mem_append.mp (hperm.mem_iff.mp heidA) with h | h
          · exact h
          · exact absurd (List.mem_append_right (sideIds b.bids) h) hnot
        · intro hrm hc
          have hc' : e.id ∈ sideIds b.bids ++
              sideIds (fillLevels tid fc (buyStop limit) amount b.asks).2.2.1 := hc
          rcases List.mem_append.mp hc' with h | h
          · exact hdisj h heidA
          · exact (List.nodup_append.mp hnd2).2.2 hrm h
      constructor
      · rw [hiff]
        constructor
        · exact hacc.1
        · intro hsup
          by_contra hno
          rcases hacc.2 hno with ⟨e', he'', _, hrem⟩
          have hp := fillLevels_pos tid fc (buyStop limit) b.asks amount hpos.2 e' he''
          rw [hrem, show suppliedBy (fillLevels tid fc (buyStop limit) amount
            b.asks).1 e.id = e.remaining_amount from hsup] at hp
          simp at hp
      · intro hin
        rcases hacc.2 (fun hrm => (hiff.mpr hrm) hin) with ⟨e', he'', hid, hrem⟩
        exact ⟨e', he'', hid, hrem⟩
    case Sell =>
      have he' : e ∈ allEntries b.bids.reverse :=
        (allEntries_reverse b.bids).mem_iff.mpr he
      have hndR : (sideIds b.bids.reverse).Nodup :=
        (sideIds_reverse b.bids).symm.nodup hndB
      have hacc := fillLevels_accounting tid fc (sellStop limit) b.bids.reverse
        amount hndR e he'
      have hperm := fillLevels_ids_perm tid fc (sellStop limit) b.bids.reverse amount
      have hnd2 := hperm.nodup hndR
      have heidR : e.id ∈ sideIds b.bids.reverse := List.mem_map.mpr ⟨e, he', rfl⟩
      have heidB : e.id ∈ sideIds b.bids := (sideIds_reverse b.bids).mem_iff.mp heidR
      have hposR : PosSide b.bids.reverse := by
        intro x hx
        exact hpos.1 x ((allEntries_reverse b.bids).mem_iff.mp hx)
      have hiff : e.id ∉ bookIds (b.matchOrder tid Side.Sell amount limit fc).2 ↔
          e.id ∈ (fillLevels tid fc (sellStop limit) amount b.bids.reverse).2.2.2 := by
        constructor
        · intro hnot
          rcases List.mem_append.mp (hperm.mem_iff.mp heidR) with h | h
          · exact h
          · refine absurd (List.mem_append_left (sideIds b.asks) ?_) hnot
            exact (sideIds_reverse _).mem_iff.mpr h
        · intro hrm hc
          have hc' : e.id ∈ sideIds (fillLevels tid fc (sellStop limit) amount
              b.bids.reverse).2.2.1.reverse ++ sideIds b.asks := hc
          rcases List.mem_append.mp hc' with h | h
          · exact (List.nodup_append.mp hnd2).2.2 hrm
              ((sideIds_reverse _).mem_iff.mp h)
          · exact hdisj heidB h
      constructor
      · rw [hiff]
        constructor
        · exact hacc.1
        · intro hsup
          by_contra hno
          rcases hacc.2 hno with ⟨e', he'', _, hrem⟩
          have hp := fillLevels_pos tid fc (sellStop limit) b.bids.reverse amount
            hposR e' he''
          rw [hrem, show suppliedBy (fillLevels tid fc (sellStop limit) amount
            b.bids.reverse).1 e.id = e.remaining_amount from hsup] at hp
          simp at hp
      · intro hin
        rcases hacc.2 (fun hrm => (hiff.mpr hrm) hin) with ⟨e', he'', hid, hrem⟩
        refine ⟨e', ?_, hid, hrem⟩
        exact (allEntries_reverse _).mem_iff.mpr he''

def c3Book : Orderbook := Orderbook.new.addOrder (testEntry 1 100 2 Side.Sell)

theorem C3_conservation_witness :
    BookInv c3Book ∧ Pos c3Book ∧
    (((c3Book.matchOrder 2 Side.Buy 5 (some 100) FeeConfig.default).1.1.map
        (·.amount)).sum =
      5 - (c3Book.matchOrder 2 Side.Buy 5 (some 100) FeeConfig.default).1.2 ∧
     ∀ e ∈ allEntries (c3Book.oppSide Side.Buy),
       (e.id ∉ bookIds (c3Book.matchOrder 2 Side.Buy 5 (some 100) FeeConfig.default).2 ↔
         suppliedBy (c3Book.matchOrder 2 Side.Buy 5 (some 100) FeeConfig.default).1.1
           e.id = e.remaining_amount) ∧
       (e.id ∈ bookIds (c3Book.matchOrder 2 Side.Buy 5 (some 100) FeeConfig.default).2 →
         ∃ e' ∈ allEntries
             ((c3Book.matchOrder 2 Side.Buy 5 (some 100) FeeConfig.default).2.oppSide
               Side.Buy),
           e'.id = e.id ∧ e'.remaining_amount = e.remaining_amount -
             suppliedBy (c3Book.matchOrder 2 Side.Buy 5 (some 100)
               FeeConfig.default).1.1 e.id)) := by
  have hInv : BookInv c3Book := by
    constructor <;> first
      | exact (chain'_lt_iff _).mpr (by with_unfolding_all decide)
      | with_unfolding_all decide
  have hb : allEntries c3Book.bids = [] := by with_unfolding_all decide
  have ha : allEntries c3Book.asks = [testEntry 1 100 2 Side.Sell] := by
    with_unfolding_all decide
  have hpos : Pos c3Book := by
    constructor
    · intro e he
      rw [hb] at he
      exact absurd he (List.not_mem_nil e)
    · intro e he
      rw [ha] at he
      rw [List.mem_singleton.mp he]
      with_unfolding_all decide
  exact ⟨hInv, hpos, C3_conservation c3Book hInv hpos 2 Side.Buy 5 (some 100)
    FeeConfig.default⟩
